import Mathlib

/-!
Verification of the manifest-editing engine specified for the voisapp
repository, together with shallow embeddings of the identifier
generators and the insert-and-link control flow of the concrete
scripts (`add_phase2_files.py`, `add_phase4_files.py`,
`add_phase6_files.py`, `fix_duplicate_groups.py`).

The repository's scripts hand-patch an Xcode `project.pbxproj` with
regular expressions; the specification abstracts them into a Document
Model (entries, containers holding ordered References), a Mutation
Engine (link, unlink, deduplicate, reassign), a Reconciler, and an
Identifier Generator.  The engine itself is not present in the
repository sources, so those components are modelled from the spec;
the identifier generators and the scripts' check-then-write control
flow are translated directly from the Python sources.
-/

namespace Voisapp

/-- Modelled from the spec (section 3): an Entry is a uniquely identified
unit of content with a kind tag, a display name, and metadata. -/
structure Entry where
  id : Nat
  kind : String
  displayName : String
  attrs : List (String × String)
deriving DecidableEq, Repr

/-- Modelled from the spec (section 3): a Reference is a directed edge to a
target entry id, carrying a raw provenance label used only for output
fidelity.  Its ordinal position is its index in the container's list. -/
structure Reference where
  target : Nat
  prov : String
deriving DecidableEq, Repr

/-- Modelled from the spec (section 3): a Container is an ordered sequence
of References. -/
structure Container where
  id : Nat
  kind : String
  children : List Reference
deriving DecidableEq, Repr

/-- Modelled from the spec (section 3): a Document owns all Entries and
Containers. -/
structure Document where
  entries : List Entry
  containers : List Container
deriving DecidableEq, Repr

/-- Modelled from the spec (section 7): the Document-model and
Mutation-Engine error kinds relevant to the in-memory engine. -/
inductive Err where
  | unknownEntry
  | unknownContainer
  | duplicateMembership
  | duplicateEntry
  | identifierSpaceExhausted
deriving DecidableEq, Repr

/-- Look a Container up by id (spec section 4.2: O(1) id-keyed lookup;
modelled as a list scan over the id-keyed collection). -/
def findContainer (d : Document) (cid : Nat) : Option Container :=
  d.containers.find? (fun c => c.id = cid)

/-- Whether an Entry with the given id is registered in the Document. -/
def hasEntry (d : Document) (eid : Nat) : Bool :=
  d.entries.any (fun e => e.id = eid)

/-- Modelled from the spec (section 4.2): `get_entry(id)` fails with
UnknownEntry if absent. -/
def get_entry (d : Document) (eid : Nat) : Except Err Entry :=
  match d.entries.find? (fun x => x.id = eid) with
  | some en => .ok en
  | none => .error .unknownEntry

/-- Modelled from the spec (section 4.2): `contains(container_id, entry_id)`. -/
def contains (d : Document) (cid : Nat) (eid : Nat) : Bool :=
  match findContainer d cid with
  | some c => c.children.any (fun r => r.target = eid)
  | none => false

/-- The ordered children of the container `cid`, or `[]` if it is absent. -/
def childrenOf (d : Document) (cid : Nat) : List Reference :=
  match findContainer d cid with
  | some c => c.children
  | none => []

/-- Rewrite the children of the first container with id `cid` (the one
`findContainer` yields; an id-keyed mapping has one binding per key)
through `f`, leaving every other container untouched. -/
def updateChildren (cs : List Container) (cid : Nat)
    (f : List Reference → List Reference) : List Container :=
  match cs with
  | [] => []
  | c :: rest =>
      if c.id = cid then { c with children := f c.children } :: rest
      else c :: updateChildren rest cid f

/-- Rewrite the children of the container with id `cid` through `f`,
leaving every other container untouched. -/
def updateContainer (d : Document) (cid : Nat)
    (f : List Reference → List Reference) : Document :=
  { d with containers := updateChildren d.containers cid f }

/-- All identifiers currently present in the Document (entry ids and
container ids), the live in-use set of spec section 4.1. -/
def usedIds (d : Document) : List Nat :=
  d.entries.map Entry.id ++ d.containers.map Container.id

/-- Modelled from the spec (section 4.2): `link` appends a Reference to the
container's ordered children; fails with UnknownContainer or UnknownEntry,
and with DuplicateMembership if the entry is already referenced. -/
def link (d : Document) (cid : Nat) (eid : Nat) (prov : String) :
    Except Err Document :=
  if hasEntry d eid then
    match findContainer d cid with
    | none => .error .unknownContainer
    | some c =>
        if c.children.any (fun r => r.target = eid) then
          .error .duplicateMembership
        else
          .ok (updateContainer d cid (fun ch => ch ++ [⟨eid, prov⟩]))
  else .error .unknownEntry

/-- Modelled from the spec (section 4.2): `unlink` removes all References in
the container pointing to the entry id (collapsing pre-existing duplicates
to none); a no-op, not an error, if the entry is not referenced. -/
def unlink (d : Document) (cid : Nat) (eid : Nat) : Except Err Document :=
  match findContainer d cid with
  | none => .error .unknownContainer
  | some _ => .ok (updateContainer d cid (fun ch =>
      ch.filter (fun r => r.target ≠ eid)))

/-- The duplicate-removal loop of `fix_duplicate_groups.py` (lines 52-60):
walk the ordered children keeping a `seen` set of already-kept targets;
a reference whose target was seen goes to the removed list, otherwise it
is kept and its target recorded.  Returns (kept, removed). -/
def dedupChildren : List Reference → List Nat → List Reference × List Reference
  | [], _ => ([], [])
  | r :: rs, seen =>
      if seen.contains r.target then
        let p := dedupChildren rs seen
        (p.1, r :: p.2)
      else
        let p := dedupChildren rs (r.target :: seen)
        (r :: p.1, p.2)

/-- Transcription of the spec's words for Deduplicate (section 4.3):
"keeps the first Reference per distinct entry id in original order,
discards subsequent duplicates".  Stated independently of the
implementation so the two can be compared. -/
def firstOccurrenceSpec : List Reference → List Reference
  | [] => []
  | r :: rs => r :: firstOccurrenceSpec (rs.filter (fun x => x.target ≠ r.target))
termination_by l => l.length
decreasing_by
  simp only [List.length_cons]
  exact Nat.lt_succ_of_le (List.length_filter_le _ _)

/-- Modelled from the spec (section 4.3): `Deduplicate(container_id)` scans
the ordered children with the first-occurrence loop and returns the list of
removed References for audit by the caller. -/
def deduplicate (d : Document) (cid : Nat) :
    Except Err (Document × List Reference) :=
  match findContainer d cid with
  | none => .error .unknownContainer
  | some c =>
      let p := dedupChildren c.children []
      .ok (updateContainer d cid (fun _ => p.1), p.2)

/-- Run the steps of a composed operation left to right, stopping at the
first failing step but keeping the Document state reached so far (spec
section 4.3: earlier sub-steps already applied are not rolled back). -/
def stFold (f : Document → α → Document × Option Err) :
    Document → List α → Document × Option Err
  | d, [] => (d, none)
  | d, x :: xs =>
      match f d x with
      | (d1, none) => stFold f d1 xs
      | (d1, some e) => (d1, some e)

/-- One removal step of Reassign: unlink the entry from one container. -/
def unlinkStep (eid : Nat) (d : Document) (cid : Nat) : Document × Option Err :=
  match unlink d cid eid with
  | .ok d1 => (d1, none)
  | .error e => (d, some e)

/-- One addition step of Reassign: link the entry into one container unless
membership already exists (spec sections 4.3 and 4.4: already-placed is
success, not an error). -/
def linkStep (eid : Nat) (prov : String) (d : Document) (cid : Nat) :
    Document × Option Err :=
  if contains d cid eid then (d, none)
  else
    match link d cid eid prov with
    | .ok d1 => (d1, none)
    | .error e => (d, some e)

/-- Modelled from the spec (section 4.3): `Reassign(entry_id, remove_from,
add_to)` unlinks from every container of `remove_from`, then links into
every container of `add_to` not already containing the entry; unlink runs
before link.  A failing sub-operation stops the sequence, and the state
reached before the failed step is returned together with the error. -/
def reassignSt (d : Document) (eid : Nat) (removeFrom addTo : List Nat) :
    Document × Option Err :=
  match stFold (unlinkStep eid) d removeFrom with
  | (d1, none) => stFold (linkStep eid "") d1 addTo
  | (d1, some e) => (d1, some e)

/-- Modelled from the spec (section 4.4): the declarative target state of
the Reconciler: every entry of `entries` must be a member of every
container of `addTo` and of no container of `removeFrom`. -/
structure TargetState where
  entries : List Nat
  addTo : List Nat
  removeFrom : List Nat
deriving DecidableEq, Repr

/-- Modelled from the spec (section 4.4): reconcile a single entry: emit
unlink for memberships in the removal set, link for missing memberships in
the addition set, skipping containers where the entry is already placed. -/
def reconcileEntry (ts : TargetState) (d : Document) (eid : Nat) :
    Document × Option Err :=
  match stFold (unlinkStep eid) d ts.removeFrom with
  | (d1, none) => stFold (linkStep eid "") d1 ts.addTo
  | (d1, some e) => (d1, some e)

/-- Modelled from the spec (section 4.4): `Reconciler.apply(target_state)`
reconciles every entry of the target state in order. -/
def reconcile (d : Document) (ts : TargetState) : Document × Option Err :=
  stFold (reconcileEntry ts) d ts.entries

/-- A Document already satisfies the target state: every entry is in every
addition container, and every removal container exists but does not
contain it. -/
def alreadyCorrect (d : Document) (ts : TargetState) : Bool :=
  ts.entries.all (fun e =>
    ts.removeFrom.all (fun c => (findContainer d c).isSome ∧ ¬contains d c e) &&
    ts.addTo.all (fun c => contains d c e))

/-- Modelled from the spec (section 4.1): `next_id` samples candidates from
the supply stream starting at index `i` and accepts the first one that
collides neither with an identifier present in the Document nor with one
previously returned in this process; it fails with IdentifierSpaceExhausted
when the fuel bound runs out. -/
def nextIdAux (used returned : List Nat) (supply : Nat → Nat) :
    Nat → Nat → Except Err (Nat × Nat)
  | 0, _ => .error .identifierSpaceExhausted
  | fuel + 1, i =>
      let cand := supply i
      if used.contains cand || returned.contains cand then
        nextIdAux used returned supply fuel (i + 1)
      else
        .ok (cand, i + 1)

/-- Modelled from the spec (section 4.1): the Identifier Generator's state —
the identifiers it has previously returned in this process, the sampling
stream, and the next stream index. -/
structure Gen where
  returned : List Nat
  supply : Nat → Nat
  idx : Nat

/-- Modelled from the spec (section 4.1): `next_id()` checks each candidate
against the live set of in-use identifiers of the Document and against the
generator's previously returned identifiers, recording the accepted one. -/
def nextId (d : Document) (g : Gen) (fuel : Nat) : Except Err (Nat × Gen) :=
  match nextIdAux (usedIds d) g.returned g.supply fuel g.idx with
  | .ok (cand, i1) => .ok (cand, { g with returned := cand :: g.returned, idx := i1 })
  | .error e => .error e

/-- Modelled from the spec (section 4.2): `add_entry` registers a new Entry;
in strict mode it fails with DuplicateEntry when an entry with the same
display name and kind already exists. -/
def addEntry (d : Document) (e : Entry) (strict : Bool) : Document × Option Err :=
  if strict && d.entries.any (fun x => x.displayName = e.displayName && x.kind = e.kind) then
    (d, some .duplicateEntry)
  else
    ({ d with entries := d.entries ++ [e] }, none)

/-- Modelled from the spec (section 4): the mutation operations a session
may perform on a Document — insert entry, link, unlink, deduplicate,
reassign.  The inserted Entry carries the generator's output as its id. -/
inductive Op where
  | insert (e : Entry) (strict : Bool)
  | link (cid eid : Nat) (prov : String)
  | unlink (cid eid : Nat)
  | dedup (cid : Nat)
  | reassign (eid : Nat) (removeFrom addTo : List Nat)

/-- Apply one operation, returning the resulting Document state (the state
before the failed step for a failing composed operation) and the error, if
any, reported to the caller. -/
def applyOp (d : Document) : Op → Document × Option Err
  | .insert e strict => addEntry d e strict
  | .link cid eid prov =>
      match link d cid eid prov with
      | .ok d1 => (d1, none)
      | .error er => (d, some er)
  | .unlink cid eid => unlinkStep eid d cid
  | .dedup cid =>
      match deduplicate d cid with
      | .ok (d1, _) => (d1, none)
      | .error er => (d, some er)
  | .reassign eid removeFrom addTo => reassignSt d eid removeFrom addTo

/-- The Document reached after a sequence of operations (failed operations
leave the state they reached; the session continues from it). -/
def run (d : Document) (ops : List Op) : Document :=
  ops.foldl (fun s op => (applyOp s op).1) d

/-- Decidable form of the no-dangling-references invariant (spec sections 3
and 8): every Reference's target entry id exists as a real Entry. -/
def wfb (d : Document) : Bool :=
  d.containers.all (fun c => c.children.all (fun r => hasEntry d r.target))

/-- Render one nibble as an uppercase hexadecimal character, as Python's
hex formatting followed by `.upper()` does. -/
def hexUpper (n : Fin 16) : Char :=
  Char.ofNat (if n.val < 10 then 48 + n.val else 55 + n.val)

/-- The nibble at position `i` of a version-4 UUID's 32-digit hex string,
given the 32 pre-mask random nibbles `r`: RFC 4122 forces nibble 12 (the
version) to 4 and the top two bits of nibble 16 (the variant) to `10`, so
nibble 16 is 8 plus the low two bits of the sampled nibble. -/
def uuid4Nibble (r : Fin 32 → Fin 16) (i : Fin 32) : Fin 16 :=
  if i.val = 12 then ⟨4, by omega⟩
  else if i.val = 16 then ⟨8 + (r i).val % 4, by omega⟩
  else r i

/-- `generate_uuid` of `add_phase2_files.py` (lines 11-13) and the per-file
id generation of `add_phase4_files.py` (lines 42-43):
`str(uuid.uuid4()).replace('-', '').upper()[:24]` — the first 24 of the 32
uppercase hex nibbles of one version-4 UUID, as a function of the UUID's
pre-mask random nibbles. -/
def generate_uuid (r : Fin 32 → Fin 16) : String :=
  String.mk ((List.finRange 24).map (fun i =>
    hexUpper (uuid4Nibble r (Fin.castLE (by omega) i))))

/-- The per-file id generation of `add_phase6_files.py` (lines 44-45): for
each `i` in `0, 2, 4, 6` it concatenates `uuid.uuid4().hex[i:i+2]` of two
fresh UUIDs (positions 0-7 of a version-4 UUID's hex are pre-mask random
nibbles, untouched by the version and variant masks), yielding 16 hex
digits; the trailing `[:24]` is a no-op on a 16-character string and
`.upper()` uppercases it.  The result is a function of 16 independent
uniform nibbles in output order. -/
def phase6FileId (r : Fin 16 → Fin 16) : String :=
  String.mk ((List.finRange 16).map (fun i => hexUpper (r i)))

/-- The structural views that the regex searches of `add_phase2_files.py`
and `add_phase4_files.py` extract from the manifest text: each field is
`some` payload when the corresponding `re.search` matches and `none` when
it does not (the script's ERROR-and-return-False branch). -/
structure ManifestView where
  extChildren : Option (List String)
  sourcesFiles : Option (List String)
  fileRefSection : Option (List String)
  buildFileSection : Option (List String)
deriving DecidableEq, Repr

/-- One entry of the `file_uuids` list built by `add_phase2_files.py`
(lines 36-45) and the parallel `file_refs`/`build_files` lists of
`add_phase4_files.py`: a file name and path with the freshly generated
file-reference and build-file identifiers. -/
structure FileUUIDs where
  name : String
  path : String
  fileRef : String
  buildFile : String
deriving DecidableEq, Repr

/-- The control flow of `add_files_to_xcode_project` in
`add_phase2_files.py` (lines 53-134): look up the Extensions group, the
Sources build phase and the PBXFileReference section, returning False on
any miss; append the new file references; look up the PBXBuildFile section
(returning False on a miss, with the in-memory edit already applied but
nothing persisted); append the new build files; extend the group children
and the Sources file list; finally perform the single write.  The returned
list collects every content passed to a write of the project file. -/
def addPhase2 (fs : List FileUUIDs) (m : ManifestView) :
    Bool × List ManifestView :=
  match m.extChildren with
  | none => (false, [])
  | some extCh =>
    match m.sourcesFiles with
    | none => (false, [])
    | some srcFiles =>
      match m.fileRefSection with
      | none => (false, [])
      | some refSec =>
        let m1 := { m with fileRefSection := some (refSec ++ fs.map FileUUIDs.fileRef) }
        match m1.buildFileSection with
        | none => (false, [])
        | some bfSec =>
          let m2 := { m1 with buildFileSection := some (bfSec ++ fs.map FileUUIDs.buildFile) }
          let m3 := { m2 with extChildren := some (extCh ++ fs.map FileUUIDs.fileRef) }
          let m4 := { m3 with sourcesFiles := some (srcFiles ++ fs.map FileUUIDs.buildFile) }
          (true, [m4])

/-- The control flow of `add_phase4_files` in `add_phase4_files.py`
(lines 62-139): look up and extend the PBXFileReference section, then the
PBXBuildFile section, then the Extensions group children, then the demo
target's Sources file list, returning False at any failed lookup before
the single final write. -/
def addPhase4 (fs : List FileUUIDs) (m : ManifestView) :
    Bool × List ManifestView :=
  match m.fileRefSection with
  | none => (false, [])
  | some refSec =>
    let m1 := { m with fileRefSection := some (refSec ++ fs.map FileUUIDs.fileRef) }
    match m1.buildFileSection with
    | none => (false, [])
    | some bfSec =>
      let m2 := { m1 with buildFileSection := some (bfSec ++ fs.map FileUUIDs.buildFile) }
      match m2.extChildren with
      | none => (false, [])
      | some extCh =>
        let m3 := { m2 with extChildren := some (extCh ++ fs.map FileUUIDs.fileRef) }
        match m3.sourcesFiles with
        | none => (false, [])
        | some srcFiles =>
          (true, [{ m3 with sourcesFiles := some (srcFiles ++ fs.map FileUUIDs.buildFile) }])

/-- The 24 output nibbles of `generate_uuid` as a function of the pre-mask
random nibbles. -/
def nib24 (r : Fin 32 → Fin 16) : Fin 24 → Fin 16 :=
  fun i => uuid4Nibble r (Fin.castLE (by omega) i)

/-- Render 24 nibbles as an uppercase-hex string, the final formatting step
of `generate_uuid`. -/
def render24 (v : Fin 24 → Fin 16) : String :=
  String.mk ((List.finRange 24).map (fun i => hexUpper (v i)))

/-- Force nibble 12 to the UUID version digit 4, as the RFC 4122 mask does;
`nib24` always produces a function fixed by `restore12`. -/
def restore12 (v : Fin 24 → Fin 16) : Fin 24 → Fin 16 :=
  fun i => if i.val = 12 then ⟨4, by omega⟩ else v i

/-- Spread 23 nibbles over the 24 output positions, leaving position 12 to
be overwritten by `restore12`. -/
def embed12 (w : Fin 23 → Fin 16) : Fin 24 → Fin 16 :=
  fun i =>
    if h : i.val < 12 then w ⟨i.val, by omega⟩
    else if h2 : i.val = 12 then ⟨0, by omega⟩
    else w ⟨i.val - 1, by omega⟩

/-- Drop nibble 12 (the constant version digit) from the 24 output
nibbles. -/
def delete12 (v : Fin 24 → Fin 16) : Fin 23 → Fin 16 :=
  fun j => if h : j.val < 12 then v ⟨j.val, by omega⟩ else v ⟨j.val + 1, by omega⟩

/-- Every `generate_uuid` output, reconstructed from only 23 free nibbles:
the factorization witnessing that the version digit carries no entropy. -/
def bound92 (w : Fin 23 → Fin 16) : String :=
  render24 (restore12 (embed12 w))

/-- The references of container `x` whose targets lie outside the entry set
`E`: the memberships a Reconciler run over `E` must not disturb. -/
def foreignRefs (E : List Nat) (d : Document) (x : Nat) : List Reference :=
  (childrenOf d x).filter (fun r => !(E.contains r.target))

/-- A small concrete Document used by the witness theorems: three entries
and three containers, container 10 holding the duplicated child list of the
spec's Deduplicate scenario. -/
def exDoc : Document :=
  { entries := [⟨1, "src", "a.swift", []⟩, ⟨2, "src", "b.swift", []⟩, ⟨3, "src", "c.swift", []⟩],
    containers :=
      [⟨10, "group", [⟨1, "a"⟩, ⟨2, "b"⟩, ⟨1, "a"⟩, ⟨3, "c"⟩]⟩,
       ⟨11, "phase", [⟨2, "b"⟩]⟩,
       ⟨12, "phase", []⟩] }

/-- The container of `exDoc` with id 10. -/
def exCont : Container := ⟨10, "group", [⟨1, "a"⟩, ⟨2, "b"⟩, ⟨1, "a"⟩, ⟨3, "c"⟩]⟩

theorem updateChildren_find_self (cs : List Container) (cid : Nat)
    (f : List Reference → List Reference) (c : Container)
    (h : cs.find? (fun x => x.id = cid) = some c) :
    (updateChildren cs cid f).find? (fun x => x.id = cid) =
      some { c with children := f c.children } := by
  induction cs with
  | nil => simp [List.find?] at h
  | cons a rest ih =>
      by_cases ha : a.id = cid
      · rw [List.find?_cons_of_pos _ (by simp [ha])] at h
        injection h with h
        subst h
        simp only [updateChildren, if_pos ha]
        exact List.find?_cons_of_pos _ (by simp [ha])
      · rw [List.find?_cons_of_neg _ (by simp [ha])] at h
        simp only [updateChildren, if_neg ha]
        rw [List.find?_cons_of_neg _ (by simp [ha])]
        exact ih h

theorem updateChildren_find_ne (cs : List Container) (cid : Nat)
    (f : List Reference → List Reference) (x : Nat) (hx : x ≠ cid) :
    (updateChildren cs cid f).find? (fun c => c.id = x) =
      cs.find? (fun c => c.id = x) := by
  induction cs with
  | nil => rfl
  | cons a rest ih =>
      by_cases ha : a.id = cid
      · simp only [updateChildren, if_pos ha]
        rw [List.find?_cons_of_neg _ (by simp only [ha, decide_eq_true_eq]; omega),
          List.find?_cons_of_neg _ (by simp only [ha, decide_eq_true_eq]; omega)]
      · simp only [updateChildren, if_neg ha]
        by_cases hax : a.id = x
        · rw [List.find?_cons_of_pos _ (by simp [hax]),
            List.find?_cons_of_pos _ (by simp [hax])]
        · rw [List.find?_cons_of_neg _ (by simp [hax]),
            List.find?_cons_of_neg _ (by simp [hax])]
          exact ih

theorem updateChildren_find_none (cs : List Container) (cid : Nat)
    (f : List Reference → List Reference)
    (h : cs.find? (fun x => x.id = cid) = none) :
    updateChildren cs cid f = cs := by
  induction cs with
  | nil => rfl
  | cons a rest ih =>
      by_cases ha : a.id = cid
      · rw [List.find?_cons_of_pos _ (by simp [ha])] at h
        exact absurd h (by simp)
      · rw [List.find?_cons_of_neg _ (by simp [ha])] at h
        simp only [updateChildren, if_neg ha]
        rw [ih h]

theorem updateChildren_self_id (cs : List Container) (cid : Nat)
    (f : List Reference → List Reference) (c : Container)
    (h : cs.find? (fun x => x.id = cid) = some c)
    (hf : f c.children = c.children) :
    updateChildren cs cid f = cs := by
  induction cs with
  | nil => simp [List.find?] at h
  | cons a rest ih =>
      by_cases ha : a.id = cid
      · rw [List.find?_cons_of_pos _ (by simp [ha])] at h
        injection h with h
        subst h
        simp only [updateChildren, if_pos ha, hf]
      · rw [List.find?_cons_of_neg _ (by simp [ha])] at h
        simp only [updateChildren, if_neg ha]
        rw [ih h]

theorem findContainer_update_self (d : Document) (cid : Nat)
    (f : List Reference → List Reference) (c : Container)
    (h : findContainer d cid = some c) :
    findContainer (updateContainer d cid f) cid =
      some { c with children := f c.children } :=
  updateChildren_find_self d.containers cid f c h

theorem findContainer_update_ne (d : Document) (cid : Nat)
    (f : List Reference → List Reference) (x : Nat) (hx : x ≠ cid) :
    findContainer (updateContainer d cid f) x = findContainer d x :=
  updateChildren_find_ne d.containers cid f x hx

theorem updateContainer_absent (d : Document) (cid : Nat)
    (f : List Reference → List Reference)
    (h : findContainer d cid = none) :
    updateContainer d cid f = d := by
  show { d with containers := updateChildren d.containers cid f } = d
  rw [updateChildren_find_none d.containers cid f h]

theorem updateContainer_self_id (d : Document) (cid : Nat)
    (f : List Reference → List Reference) (c : Container)
    (h : findContainer d cid = some c)
    (hf : f c.children = c.children) :
    updateContainer d cid f = d := by
  show { d with containers := updateChildren d.containers cid f } = d
  rw [updateChildren_self_id d.containers cid f c h hf]

theorem childrenOf_update_self (d : Document) (cid : Nat)
    (f : List Reference → List Reference) (c : Container)
    (h : findContainer d cid = some c) :
    childrenOf (updateContainer d cid f) cid = f c.children := by
  unfold childrenOf
  rw [findContainer_update_self d cid f c h]

theorem childrenOf_update_ne (d : Document) (cid : Nat)
    (f : List Reference → List Reference) (x : Nat) (hx : x ≠ cid) :
    childrenOf (updateContainer d cid f) x = childrenOf d x := by
  unfold childrenOf
  rw [findContainer_update_ne d cid f x hx]

theorem hasEntry_update (d : Document) (cid : Nat)
    (f : List Reference → List Reference) (e : Nat) :
    hasEntry (updateContainer d cid f) e = hasEntry d e := rfl

theorem entries_update (d : Document) (cid : Nat)
    (f : List Reference → List Reference) :
    (updateContainer d cid f).entries = d.entries := rfl

theorem contains_update_ne (d : Document) (cid : Nat)
    (f : List Reference → List Reference) (x e : Nat) (hx : x ≠ cid) :
    contains (updateContainer d cid f) x e = contains d x e := by
  unfold contains
  rw [findContainer_update_ne d cid f x hx]

theorem findContainer_update_isSome (d : Document) (cid : Nat)
    (f : List Reference → List Reference) (x : Nat) :
    (findContainer (updateContainer d cid f) x).isSome =
      (findContainer d x).isSome := by
  by_cases hx : x = cid
  · subst hx
    cases h : findContainer d x with
    | none => rw [updateContainer_absent d x f h, h]
    | some c =>
        rw [findContainer_update_self d x f c h]
        rfl
  · rw [findContainer_update_ne d cid f x hx]

theorem unlink_eq (d : Document) (cid eid : Nat) (c : Container)
    (h : findContainer d cid = some c) :
    unlink d cid eid =
      .ok (updateContainer d cid (fun ch => ch.filter (fun r => r.target ≠ eid))) := by
  unfold unlink
  rw [h]

/-- Claim C6: for every container and entry id, unlink removes all
References in that container pointing to the entry id, including collapsing
pre-existing duplicates to none; other containers are untouched; and when
the entry is not referenced by the container, unlink is a no-op returning
the unchanged Document rather than an error. -/
theorem unlink_removes_all (d : Document) (cid eid : Nat) (c : Container)
    (h : findContainer d cid = some c) :
    ∃ d1, unlink d cid eid = .ok d1 ∧
      childrenOf d1 cid = c.children.filter (fun r => r.target ≠ eid) ∧
      (∀ r ∈ childrenOf d1 cid, r.target ≠ eid) ∧
      (∀ x, x ≠ cid → childrenOf d1 x = childrenOf d x) ∧
      (contains d cid eid = false → d1 = d) := by
  refine ⟨_, unlink_eq d cid eid c h, childrenOf_update_self d cid _ c h, ?_, ?_, ?_⟩
  · rw [childrenOf_update_self d cid _ c h]
    intro r hr
    have := List.of_mem_filter hr
    simpa using this
  · intro x hx
    exact childrenOf_update_ne d cid _ x hx
  · intro hc
    apply updateContainer_self_id d cid _ c h
    apply List.filter_eq_self.mpr
    intro r hr
    unfold contains at hc
    rw [h] at hc
    simp only [List.any_eq_true, not_exists] at hc
    have : ¬(r.target = eid) := by
      intro he
      rw [List.any_eq_false] at hc
      exact absurd (by simpa using he) (by simpa using hc r hr)
    simpa using this

/-- Witness for C6 at a concrete Document: unlinking entry 1 from container
10 of `exDoc` removes both duplicated references to it. -/
theorem unlink_removes_all_witness :
    ∃ d1, unlink exDoc 10 1 = .ok d1 ∧
      childrenOf d1 10 = exCont.children.filter (fun r => r.target ≠ 1) ∧
      (∀ r ∈ childrenOf d1 10, r.target ≠ 1) ∧
      (∀ x, x ≠ 10 → childrenOf d1 x = childrenOf exDoc x) ∧
      (contains exDoc 10 1 = false → d1 = exDoc) :=
  unlink_removes_all exDoc 10 1 exCont (by rfl)

theorem dedupChildren_fst (l : List Reference) (seen : List Nat) :
    (dedupChildren l seen).1 =
      firstOccurrenceSpec (l.filter (fun r => !(seen.contains r.target))) := by
  induction l generalizing seen with
  | nil => simp [dedupChildren, firstOccurrenceSpec]
  | cons r rs ih =>
      by_cases hc : seen.contains r.target = true
      · rw [List.filter_cons_of_neg (by rw [hc]; simp)]
        simp only [dedupChildren, if_pos hc]
        exact ih seen
      · have hcf : seen.contains r.target = false := Bool.eq_false_iff.mpr hc
        rw [List.filter_cons_of_pos (by rw [hcf]; simp)]
        simp only [dedupChildren, if_neg hc, firstOccurrenceSpec]
        rw [ih (r.target :: seen), List.filter_filter]
        congr 2
        apply List.filter_congr
        intro x _
        by_cases hx : x.target = r.target
        · simp [hx, List.contains_cons]
        · by_cases hs : seen.contains x.target = true <;>
            simp [hx, hs, List.contains_cons]

theorem dedupChildren_perm (l : List Reference) (seen : List Nat) :
    ((dedupChildren l seen).1 ++ (dedupChildren l seen).2).Perm l := by
  induction l generalizing seen with
  | nil => simp [dedupChildren]
  | cons r rs ih =>
      by_cases hc : seen.contains r.target = true
      · simp only [dedupChildren, if_pos hc]
        exact List.perm_middle.trans ((ih seen).cons r)
      · simp only [dedupChildren, if_neg hc, List.cons_append]
        exact (ih (r.target :: seen)).cons r

theorem dedupChildren_nodup (l : List Reference) (seen : List Nat) :
    ((dedupChildren l seen).1.map Reference.target).Nodup ∧
      ∀ t ∈ (dedupChildren l seen).1.map Reference.target,
        seen.contains t = false := by
  induction l generalizing seen with
  | nil => simp [dedupChildren]
  | cons r rs ih =>
      by_cases hc : seen.contains r.target = true
      · simpa only [dedupChildren, if_pos hc] using ih seen
      · simp only [dedupChildren, if_neg hc, List.map_cons, List.nodup_cons]
        obtain ⟨h1, h2⟩ := ih (r.target :: seen)
        refine ⟨⟨?_, h1⟩, ?_⟩
        · intro hmem
          have := h2 r.target hmem
          simp [List.contains_cons] at this
        · intro t ht
          rcases List.mem_cons.mp ht with h | h
          · subst h
            exact Bool.eq_false_iff.mpr hc
          · have := h2 t h
            simp only [List.contains_cons, Bool.or_eq_false_iff] at this
            exact this.2

theorem dedupChildren_covers (l : List Reference) :
    ∀ (seen : List Nat) (x : Reference), x ∈ l →
      seen.contains x.target = false →
      x.target ∈ (dedupChildren l seen).1.map Reference.target := by
  induction l with
  | nil =>
      intro _ x hx _
      cases hx
  | cons r rs ih =>
      intro seen x hx hs
      by_cases hc : seen.contains r.target = true
      · simp only [dedupChildren, if_pos hc]
        rcases List.mem_cons.mp hx with h | h
        · rw [h] at hs
          rw [hs] at hc
          cases hc
        · exact ih seen x h hs
      · simp only [dedupChildren, if_neg hc, List.map_cons]
        rcases List.mem_cons.mp hx with h | h
        · rw [h]
          exact List.mem_cons_self _ _
        · by_cases hxr : x.target = r.target
          · rw [hxr]
            exact List.mem_cons_self _ _
          · apply List.mem_cons_of_mem
            apply ih (r.target :: seen) x h
            rw [List.contains_cons, hs]
            simp [hxr]

/-- Claim C3: Deduplicate keeps exactly the first Reference per distinct
target entry id in the original relative order (it equals the
first-occurrence transcription of the spec), discards all subsequent
duplicates and returns them as the removed list (kept and removed together
permute the original children); afterwards membership is unchanged for
every entry id, the container holds no two References with equal target,
and other containers are untouched. -/
theorem deduplicate_spec (d : Document) (cid : Nat) (c : Container)
    (h : findContainer d cid = some c) :
    ∃ d1 removed, deduplicate d cid = .ok (d1, removed) ∧
      childrenOf d1 cid = firstOccurrenceSpec c.children ∧
      ((childrenOf d1 cid).map Reference.target).Nodup ∧
      (∀ e, contains d1 cid e = contains d cid e) ∧
      (childrenOf d1 cid ++ removed).Perm c.children ∧
      (∀ x, x ≠ cid → childrenOf d1 x = childrenOf d x) := by
  have hdedup : deduplicate d cid =
      .ok (updateContainer d cid (fun _ => (dedupChildren c.children []).1),
        (dedupChildren c.children []).2) := by
    unfold deduplicate
    rw [h]
  have hch : childrenOf (updateContainer d cid (fun _ => (dedupChildren c.children []).1)) cid =
      (dedupChildren c.children []).1 :=
    childrenOf_update_self d cid _ c h
  refine ⟨_, _, hdedup, ?_, ?_, ?_, ?_, ?_⟩
  · rw [hch, dedupChildren_fst]
    congr 1
    simp [List.filter_eq_self]
  · rw [hch]
    exact (dedupChildren_nodup c.children []).1
  · intro e
    unfold contains
    rw [findContainer_update_self d cid _ c h, h]
    rw [Bool.eq_iff_iff]
    simp only [List.any_eq_true, decide_eq_true_eq]
    constructor
    · rintro ⟨r, hr, rfl⟩
      have hsub : r ∈ c.children := by
        have hperm := dedupChildren_perm c.children []
        exact hperm.mem_iff.mp (List.mem_append.mpr (Or.inl hr))
      exact ⟨r, hsub, rfl⟩
    · rintro ⟨r, hr, rfl⟩
      have := dedupChildren_covers c.children [] r hr (by rfl)
      rcases List.mem_map.mp this with ⟨r2, hr2, ht⟩
      exact ⟨r2, hr2, ht⟩
  · rw [hch]
    exact dedupChildren_perm c.children []
  · intro x hx
    exact childrenOf_update_ne d cid _ x hx

/-- Witness for C3 at a concrete Document: container 10 of `exDoc` has
children with targets 1, 2, 1, 3 (the spec scenario a, b, a, c); Deduplicate
keeps targets 1, 2, 3 and returns exactly one removed Reference (the second
occurrence of target 1). -/
theorem deduplicate_spec_witness :
    (deduplicate exDoc 10).map (fun p => (childrenOf p.1 10, p.2)) =
      .ok ([⟨1, "a"⟩, ⟨2, "b"⟩, ⟨3, "c"⟩], [⟨1, "a"⟩]) ∧
    (∃ d1 removed, deduplicate exDoc 10 = .ok (d1, removed) ∧
      childrenOf d1 10 = firstOccurrenceSpec exCont.children ∧
      ((childrenOf d1 10).map Reference.target).Nodup ∧
      (∀ e, contains d1 10 e = contains exDoc 10 e) ∧
      (childrenOf d1 10 ++ removed).Perm exCont.children ∧
      (∀ x, x ≠ 10 → childrenOf d1 x = childrenOf exDoc x)) :=
  ⟨by rfl, deduplicate_spec exDoc 10 exCont (by rfl)⟩

theorem contains_isSome (d : Document) (c e : Nat)
    (h : contains d c e = true) : (findContainer d c).isSome = true := by
  unfold contains at h
  cases hf : findContainer d c with
  | none => rw [hf] at h; cases h
  | some _ => rfl

theorem any_filter_ne (l : List Reference) (e : Nat) :
    (l.filter (fun r => r.target ≠ e)).any (fun r => r.target = e) = false := by
  rw [List.any_eq_false]
  intro r hr
  have := List.of_mem_filter hr
  simpa using this

theorem link_eq (d : Document) (cid eid : Nat) (prov : String) (c : Container)
    (he : hasEntry d eid = true)
    (h : findContainer d cid = some c)
    (hnc : c.children.any (fun r => r.target = eid) = false) :
    link d cid eid prov =
      .ok (updateContainer d cid (fun ch => ch ++ [⟨eid, prov⟩])) := by
  unfold link
  rw [he, h]
  simp [hnc]

theorem link_ok_inv (d : Document) (cid eid : Nat) (prov : String)
    (d1 : Document) (h : link d cid eid prov = .ok d1) :
    hasEntry d eid = true ∧ ∃ c, findContainer d cid = some c ∧
      c.children.any (fun r => r.target = eid) = false ∧
      d1 = updateContainer d cid (fun ch => ch ++ [⟨eid, prov⟩]) := by
  unfold link at h
  split at h
  next he2 =>
    split at h
    next => exact Except.noConfusion h
    next c hfc =>
      split at h
      next => exact Except.noConfusion h
      next hnc =>
        injection h with h2
        exact ⟨he2, c, hfc, by simpa using hnc, h2.symm⟩
  next => exact Except.noConfusion h

theorem unlinkStep_result (e : Nat) (d : Document) (c : Nat) :
    (findContainer d c = none ∧ (unlinkStep e d c).1 = d ∧
      (unlinkStep e d c).2 = some .unknownContainer) ∨
    ((findContainer d c).isSome = true ∧
      (unlinkStep e d c).1 =
        updateContainer d c (fun ch => ch.filter (fun r => r.target ≠ e)) ∧
      (unlinkStep e d c).2 = none) := by
  unfold unlinkStep unlink
  cases hf : findContainer d c with
  | none => exact Or.inl ⟨rfl, rfl, rfl⟩
  | some _ => exact Or.inr ⟨rfl, rfl, rfl⟩

theorem linkStep_skip (e : Nat) (p : String) (d : Document) (c : Nat)
    (hc : contains d c e = true) :
    linkStep e p d c = (d, none) := by
  unfold linkStep
  rw [if_pos hc]

theorem linkStep_result (e : Nat) (p : String) (d : Document) (c : Nat) :
    (linkStep e p d c).1 = d ∨
    ((linkStep e p d c).1 =
        updateContainer d c (fun ch => ch ++ [⟨e, p⟩]) ∧
      (findContainer d c).isSome = true ∧
      hasEntry d e = true ∧
      (linkStep e p d c).2 = none) := by
  unfold linkStep
  by_cases hc : contains d c e = true
  · rw [if_pos hc]
    exact Or.inl rfl
  · rw [if_neg hc]
    cases hl : link d c e p with
    | error er => exact Or.inl rfl
    | ok d1 =>
        obtain ⟨he, cc, hfc, -, heq⟩ := link_ok_inv d c e p d1 hl
        refine Or.inr ⟨?_, by rw [hfc]; rfl, he, rfl⟩
        simpa using heq

theorem linkStep_none_isSome (e : Nat) (p : String) (d dA : Document)
    (a : Nat) (h : linkStep e p d a = (dA, none)) :
    (findContainer d a).isSome = true := by
  unfold linkStep at h
  by_cases hc : contains d a e = true
  · exact contains_isSome d a e hc
  · rw [if_neg hc] at h
    cases hl : link d a e p with
    | error er => rw [hl] at h; simp at h
    | ok d1 =>
        obtain ⟨-, cc, hfc, -, -⟩ := link_ok_inv d a e p d1 hl
        rw [hfc]
        rfl

theorem unlinkStep_none_isSome (e : Nat) (d dA : Document) (a : Nat)
    (h : unlinkStep e d a = (dA, none)) :
    (findContainer d a).isSome = true := by
  rcases unlinkStep_result e d a with ⟨-, -, h2⟩ | ⟨h1, -, -⟩
  · rw [h] at h2; simp at h2
  · exact h1

theorem stFold_preserves (f : Document → α → Document × Option Err)
    (P : Document → Prop)
    (hstep : ∀ d x, P d → P (f d x).1) :
    ∀ (l : List α) (d : Document), P d → P (stFold f d l).1 := by
  intro l
  induction l with
  | nil => intro d hd; exact hd
  | cons x xs ih =>
      intro d hd
      unfold stFold
      cases hf : f d x with
      | mk d1 err =>
          cases err with
          | none =>
              apply ih
              have := hstep d x hd
              rw [hf] at this
              exact this
          | some er =>
              have := hstep d x hd
              rw [hf] at this
              exact this

theorem unlinkStep_isSome (e : Nat) (d : Document) (c x : Nat) :
    (findContainer (unlinkStep e d c).1 x).isSome = (findContainer d x).isSome := by
  rcases unlinkStep_result e d c with ⟨-, h1, -⟩ | ⟨-, h1, -⟩
  · rw [h1]
  · rw [h1]
    exact findContainer_update_isSome d c _ x

theorem linkStep_isSome (e : Nat) (p : String) (d : Document) (c x : Nat) :
    (findContainer (linkStep e p d c).1 x).isSome = (findContainer d x).isSome := by
  rcases linkStep_result e p d c with h1 | ⟨h1, -, -, -⟩
  · rw [h1]
  · rw [h1]
    exact findContainer_update_isSome d c _ x

theorem unlinkStep_entries (e : Nat) (d : Document) (c : Nat) :
    (unlinkStep e d c).1.entries = d.entries := by
  rcases unlinkStep_result e d c with ⟨-, h1, -⟩ | ⟨-, h1, -⟩ <;> rw [h1] <;> rfl

theorem linkStep_entries (e : Nat) (p : String) (d : Document) (c : Nat) :
    (linkStep e p d c).1.entries = d.entries := by
  rcases linkStep_result e p d c with h1 | ⟨h1, -, -, -⟩ <;> rw [h1] <;> rfl

theorem stFold_step_none (f : Document → α → Document × Option Err)
    (d d2 : Document) (x : α) (xs : List α)
    (h : stFold f d (x :: xs) = (d2, none)) :
    ∃ d1, f d x = (d1, none) ∧ stFold f d1 xs = (d2, none) := by
  unfold stFold at h
  cases hf : f d x with
  | mk d1 err =>
      rw [hf] at h
      cases err with
      | none => exact ⟨d1, rfl, h⟩
      | some er =>
          simp only [Prod.mk.injEq] at h
          cases h.2

theorem stFold_none_unlink (e : Nat) :
    ∀ (rem : List Nat) (d d1 : Document),
      stFold (unlinkStep e) d rem = (d1, none) →
      ∀ c ∈ rem, (findContainer d c).isSome = true := by
  intro rem
  induction rem with
  | nil =>
      intro d d1 _ c hc
      cases hc
  | cons a as ih =>
      intro d d1 hfold c hc
      obtain ⟨dA, hstep, hrest⟩ := stFold_step_none _ d d1 a as hfold
      rcases List.mem_cons.mp hc with h | h
      · rw [h]
        exact unlinkStep_none_isSome e d dA a hstep
      · have hc2 := ih dA d1 hrest c h
        have hiso := unlinkStep_isSome e d a c
        rw [hstep] at hiso
        rw [← hiso]
        exact hc2

theorem stFold_none_link (e : Nat) (p : String) :
    ∀ (addTo : List Nat) (d d1 : Document),
      stFold (linkStep e p) d addTo = (d1, none) →
      ∀ c ∈ addTo, (findContainer d c).isSome = true := by
  intro addTo
  induction addTo with
  | nil =>
      intro d d1 _ c hc
      cases hc
  | cons a as ih =>
      intro d d1 hfold c hc
      obtain ⟨dA, hstep, hrest⟩ := stFold_step_none _ d d1 a as hfold
      rcases List.mem_cons.mp hc with h | h
      · rw [h]
        exact linkStep_none_isSome e p d dA a hstep
      · have hc2 := ih dA d1 hrest c h
        have hiso := linkStep_isSome e p d a c
        rw [hstep] at hiso
        rw [← hiso]
        exact hc2

theorem stFold_isSome_all (f : Document → α → Document × Option Err)
    (hstep : ∀ d c x, (findContainer (f d c).1 x).isSome = (findContainer d x).isSome)
    (l : List α) (d : Document) (x : Nat) :
    (findContainer (stFold f d l).1 x).isSome = (findContainer d x).isSome :=
  stFold_preserves f
    (fun dd => (findContainer dd x).isSome = (findContainer d x).isSome)
    (fun dd y hdd => (hstep dd y x).trans hdd) l d rfl


theorem stFold_preserves_mem (f : Document → α → Document × Option Err)
    (P : Document → Prop) (l : List α)
    (hstep : ∀ d x, x ∈ l → P d → P (f d x).1) :
    ∀ (d : Document), P d → P (stFold f d l).1 := by
  induction l with
  | nil => intro d hd; exact hd
  | cons x xs ih =>
      intro d hd
      unfold stFold
      cases hf : f d x with
      | mk d1 err =>
          have h1 : P d1 := by
            have := hstep d x (List.mem_cons_self x xs) hd
            rw [hf] at this
            exact this
          cases err with
          | none => exact ih (fun dd y hy hdd => hstep dd y (List.mem_cons_of_mem x hy) hdd) d1 h1
          | some er => exact h1

theorem stFold_none_preserves (f : Document → α → Document × Option Err)
    (P : Document → Prop) (l : List α)
    (hstep : ∀ dd x dd1, x ∈ l → f dd x = (dd1, none) → P dd → P dd1) :
    ∀ (dd dd1 : Document), stFold f dd l = (dd1, none) → P dd → P dd1 := by
  induction l with
  | nil =>
      intro dd dd1 h hP
      injection h with h1 h2
      rw [← h1]
      exact hP
  | cons x xs ih =>
      intro dd dd1 h hP
      obtain ⟨dA, hstep1, hrest⟩ := stFold_step_none f dd dd1 x xs h
      exact ih (fun a y b hy hb hPb => hstep a y b (List.mem_cons_of_mem x hy) hb hPb)
        dA dd1 hrest (hstep dd x dA (List.mem_cons_self x xs) hstep1 hP)

theorem stFold_noop (f : Document → α → Document × Option Err) (d : Document) :
    ∀ (l : List α), (∀ x ∈ l, f d x = (d, none)) → stFold f d l = (d, none) := by
  intro l
  induction l with
  | nil => intro _; rfl
  | cons x xs ih =>
      intro h
      unfold stFold
      rw [h x (List.mem_cons_self x xs)]
      exact ih (fun y hy => h y (List.mem_cons_of_mem x hy))

theorem unlinkStep_children_ne (e : Nat) (d : Document) (c x : Nat)
    (hx : x ≠ c) : childrenOf (unlinkStep e d c).1 x = childrenOf d x := by
  rcases unlinkStep_result e d c with ⟨-, h1, -⟩ | ⟨-, h1, -⟩
  · rw [h1]
  · rw [h1]
    exact childrenOf_update_ne d c _ x hx

theorem linkStep_children_ne (e : Nat) (p : String) (d : Document) (c x : Nat)
    (hx : x ≠ c) : childrenOf (linkStep e p d c).1 x = childrenOf d x := by
  rcases linkStep_result e p d c with h1 | ⟨h1, -, -, -⟩
  · rw [h1]
  · rw [h1]
    exact childrenOf_update_ne d c _ x hx

theorem unlinkStep_contains_ne (e e2 : Nat) (d : Document) (c x : Nat)
    (hx : x ≠ c) : contains (unlinkStep e d c).1 x e2 = contains d x e2 := by
  rcases unlinkStep_result e d c with ⟨-, h1, -⟩ | ⟨-, h1, -⟩
  · rw [h1]
  · rw [h1]
    exact contains_update_ne d c _ x e2 hx

theorem linkStep_contains_ne (e e2 : Nat) (p : String) (d : Document) (c x : Nat)
    (hx : x ≠ c) : contains (linkStep e p d c).1 x e2 = contains d x e2 := by
  rcases linkStep_result e p d c with h1 | ⟨h1, -, -, -⟩
  · rw [h1]
  · rw [h1]
    exact contains_update_ne d c _ x e2 hx

theorem contains_children (d : Document) (x e : Nat) :
    contains d x e = (childrenOf d x).any (fun r => r.target = e) := by
  unfold contains childrenOf
  cases findContainer d x with
  | none => rfl
  | some c => rfl

theorem unlinkStep_contains_false (e e2 : Nat) (d : Document) (c x : Nat)
    (h : contains d x e2 = false) :
    contains (unlinkStep e d c).1 x e2 = false := by
  by_cases hx : x = c
  · subst hx
    rcases unlinkStep_result e d x with ⟨-, h1, -⟩ | ⟨hs, h1, -⟩
    · rw [h1]; exact h
    · rw [h1]
      obtain ⟨cc, hfc⟩ := Option.isSome_iff_exists.mp hs
      rw [contains_children, childrenOf_update_self d x _ cc hfc]
      rw [List.any_eq_false]
      intro r hr
      have h2 := List.of_mem_filter hr
      have h3 : r ∈ cc.children := List.mem_of_mem_filter hr
      rw [contains_children, List.any_eq_false] at h
      unfold childrenOf at h
      rw [hfc] at h
      exact h r h3
  · rw [unlinkStep_contains_ne e e2 d c x hx]
    exact h

theorem unlinkStep_contains_self (e : Nat) (d : Document) (c : Nat) :
    contains (unlinkStep e d c).1 c e = false := by
  rcases unlinkStep_result e d c with ⟨hn, h1, -⟩ | ⟨hs, h1, -⟩
  · rw [h1]
    unfold contains
    rw [hn]
  · rw [h1]
    obtain ⟨cc, hfc⟩ := Option.isSome_iff_exists.mp hs
    rw [contains_children, childrenOf_update_self d c _ cc hfc]
    exact any_filter_ne cc.children e

theorem linkStep_contains_true (e e2 : Nat) (p : String) (d : Document)
    (c x : Nat) (h : contains d x e2 = true) :
    contains (linkStep e p d c).1 x e2 = true := by
  by_cases hx : x = c
  · subst hx
    rcases linkStep_result e p d x with h1 | ⟨h1, hs, -, -⟩
    · rw [h1]; exact h
    · rw [h1]
      obtain ⟨cc, hfc⟩ := Option.isSome_iff_exists.mp hs
      rw [contains_children, childrenOf_update_self d x _ cc hfc, List.any_append]
      rw [contains_children] at h
      unfold childrenOf at h
      rw [hfc] at h
      rw [h]
      rfl
  · rw [linkStep_contains_ne e e2 p d c x hx]
    exact h

theorem linkStep_none_contains_self (e : Nat) (p : String) (d dB : Document)
    (c : Nat) (h : linkStep e p d c = (dB, none)) :
    contains dB c e = true := by
  unfold linkStep at h
  by_cases hc : contains d c e = true
  · rw [if_pos hc] at h
    injection h with h1 h2
    rw [← h1]
    exact hc
  · rw [if_neg hc] at h
    cases hl : link d c e p with
    | error er => rw [hl] at h; simp at h
    | ok d1 =>
        rw [hl] at h
        injection h with h1 h2
        obtain ⟨-, cc, hfc, -, heq⟩ := link_ok_inv d c e p d1 hl
        rw [← h1, heq, contains_children, childrenOf_update_self d c _ cc hfc]
        simp

theorem reconcileEntry_fst (ts : TargetState) (d : Document) (e : Nat) :
    (reconcileEntry ts d e).1 = (stFold (unlinkStep e) d ts.removeFrom).1 ∨
    (reconcileEntry ts d e).1 =
      (stFold (linkStep e "") (stFold (unlinkStep e) d ts.removeFrom).1
        ts.addTo).1 := by
  unfold reconcileEntry
  cases hfold : stFold (unlinkStep e) d ts.removeFrom with
  | mk d1 err =>
      cases err with
      | none =>
          right
          rfl
      | some er =>
          left
          rfl

theorem reconcileEntry_none_split (ts : TargetState) (d d1 : Document) (e : Nat)
    (h : reconcileEntry ts d e = (d1, none)) :
    ∃ dA, stFold (unlinkStep e) d ts.removeFrom = (dA, none) ∧
      stFold (linkStep e "") dA ts.addTo = (d1, none) := by
  unfold reconcileEntry at h
  cases hfold : stFold (unlinkStep e) d ts.removeFrom with
  | mk dA err =>
      rw [hfold] at h
      cases err with
      | none => exact ⟨dA, rfl, h⟩
      | some er =>
          injection h with h1 h2
          cases h2


theorem filter_absorb (p q : Reference → Bool) (l : List Reference)
    (h : ∀ a, p a = true → q a = true) :
    (l.filter q).filter p = l.filter p := by
  induction l with
  | nil => rfl
  | cons a rest ih =>
      by_cases hq : q a = true
      · rw [List.filter_cons_of_pos hq]
        by_cases hp : p a = true
        · rw [List.filter_cons_of_pos hp, List.filter_cons_of_pos hp, ih]
        · rw [List.filter_cons_of_neg hp, List.filter_cons_of_neg hp, ih]
      · have hp : ¬p a = true := fun hpa => hq (h a hpa)
        rw [List.filter_cons_of_neg hq, List.filter_cons_of_neg hp, ih]

theorem childrenOf_eq_of_find (d : Document) (x : Nat) (c : Container)
    (h : findContainer d x = some c) : childrenOf d x = c.children := by
  unfold childrenOf
  rw [h]

theorem unlinkStep_foreign (E : List Nat) (e : Nat) (he : e ∈ E)
    (d : Document) (c x : Nat) :
    foreignRefs E (unlinkStep e d c).1 x = foreignRefs E d x := by
  by_cases hx : x = c
  · subst hx
    rcases unlinkStep_result e d x with ⟨-, h1, -⟩ | ⟨hs, h1, -⟩
    · rw [h1]
    · rw [h1]
      obtain ⟨cc, hfc⟩ := Option.isSome_iff_exists.mp hs
      unfold foreignRefs
      rw [childrenOf_update_self d x _ cc hfc, childrenOf_eq_of_find d x cc hfc]
      apply filter_absorb
      intro a hpa
      have hmem : a.target ∉ E := by simpa using hpa
      simp only [decide_eq_true_eq]
      intro hae
      rw [hae] at hmem
      exact hmem he
  · unfold foreignRefs
    rw [unlinkStep_children_ne e d c x hx]

theorem linkStep_foreign (E : List Nat) (e : Nat) (he : e ∈ E) (p : String)
    (d : Document) (c x : Nat) :
    foreignRefs E (linkStep e p d c).1 x = foreignRefs E d x := by
  by_cases hx : x = c
  · subst hx
    rcases linkStep_result e p d x with h1 | ⟨h1, hs, -, -⟩
    · rw [h1]
    · rw [h1]
      obtain ⟨cc, hfc⟩ := Option.isSome_iff_exists.mp hs
      unfold foreignRefs
      rw [childrenOf_update_self d x _ cc hfc, childrenOf_eq_of_find d x cc hfc,
        List.filter_append]
      have hnil : List.filter (fun r => !(E.contains r.target))
          [(⟨e, p⟩ : Reference)] = [] := by
        simp [he]
      rw [hnil, List.append_nil]
  · unfold foreignRefs
    rw [linkStep_children_ne e p d c x hx]

theorem reconcileEntry_frame (ts : TargetState) (e : Nat) (he : e ∈ ts.entries)
    (d : Document) :
    (∀ x, x ∉ ts.addTo → x ∉ ts.removeFrom →
      childrenOf (reconcileEntry ts d e).1 x = childrenOf d x) ∧
    (∀ x, foreignRefs ts.entries (reconcileEntry ts d e).1 x =
      foreignRefs ts.entries d x) ∧
    (reconcileEntry ts d e).1.entries = d.entries := by
  have hP : ∀ (start : Document) (res : Document),
      (res = (stFold (unlinkStep e) start ts.removeFrom).1 ∨
        res = (stFold (linkStep e "") (stFold (unlinkStep e) start ts.removeFrom).1
          ts.addTo).1) →
      (∀ x, x ∉ ts.addTo → x ∉ ts.removeFrom →
        childrenOf res x = childrenOf start x) ∧
      (∀ x, foreignRefs ts.entries res x = foreignRefs ts.entries start x) ∧
      res.entries = start.entries := by
    intro start res hres
    have hU : (∀ x, x ∉ ts.addTo → x ∉ ts.removeFrom →
        childrenOf (stFold (unlinkStep e) start ts.removeFrom).1 x =
          childrenOf start x) ∧
        (∀ x, foreignRefs ts.entries (stFold (unlinkStep e) start ts.removeFrom).1 x =
          foreignRefs ts.entries start x) ∧
        (stFold (unlinkStep e) start ts.removeFrom).1.entries = start.entries := by
      refine stFold_preserves_mem (unlinkStep e)
        (fun dd => (∀ x, x ∉ ts.addTo → x ∉ ts.removeFrom →
            childrenOf dd x = childrenOf start x) ∧
          (∀ x, foreignRefs ts.entries dd x = foreignRefs ts.entries start x) ∧
          dd.entries = start.entries)
        ts.removeFrom ?_ start ⟨fun x _ _ => rfl, fun x => rfl, rfl⟩
      intro dd cid hcid hdd
      refine ⟨?_, ?_, ?_⟩
      · intro x hxC hxD
        have hxc : x ≠ cid := fun hxe => hxD (hxe ▸ hcid)
        rw [unlinkStep_children_ne e dd cid x hxc]
        exact hdd.1 x hxC hxD
      · intro x
        rw [unlinkStep_foreign ts.entries e he dd cid x]
        exact hdd.2.1 x
      · rw [unlinkStep_entries e dd cid]
        exact hdd.2.2
    rcases hres with hres | hres
    · rw [hres]
      exact hU
    · rw [hres]
      refine stFold_preserves_mem (linkStep e "")
        (fun dd => (∀ x, x ∉ ts.addTo → x ∉ ts.removeFrom →
            childrenOf dd x = childrenOf start x) ∧
          (∀ x, foreignRefs ts.entries dd x = foreignRefs ts.entries start x) ∧
          dd.entries = start.entries)
        ts.addTo ?_ _ hU
      intro dd cid hcid hdd
      refine ⟨?_, ?_, ?_⟩
      · intro x hxC hxD
        have hxc : x ≠ cid := fun hxe => hxC (hxe ▸ hcid)
        rw [linkStep_children_ne e "" dd cid x hxc]
        exact hdd.1 x hxC hxD
      · intro x
        rw [linkStep_foreign ts.entries e he "" dd cid x]
        exact hdd.2.1 x
      · rw [linkStep_entries e "" dd cid]
        exact hdd.2.2
  exact hP d (reconcileEntry ts d e).1 (by
    rcases reconcileEntry_fst ts d e with h | h
    · exact Or.inl h
    · exact Or.inr h)

/-- Claim C8: the Reconciler does not disturb memberships outside the
declared target state: containers named in neither the addition nor the
removal set keep their children unchanged, every container keeps exactly
its references to entries outside the declared entry set, and the entry
table itself is untouched — whether or not the run reports an error. -/
theorem reconcile_frame (d : Document) (ts : TargetState) :
    (∀ x, x ∉ ts.addTo → x ∉ ts.removeFrom →
      childrenOf (reconcile d ts).1 x = childrenOf d x) ∧
    (∀ x, foreignRefs ts.entries (reconcile d ts).1 x =
      foreignRefs ts.entries d x) ∧
    (reconcile d ts).1.entries = d.entries := by
  unfold reconcile
  refine stFold_preserves_mem (reconcileEntry ts)
    (fun dd => (∀ x, x ∉ ts.addTo → x ∉ ts.removeFrom →
        childrenOf dd x = childrenOf d x) ∧
      (∀ x, foreignRefs ts.entries dd x = foreignRefs ts.entries d x) ∧
      dd.entries = d.entries)
    ts.entries ?_ d ⟨fun x _ _ => rfl, fun x => rfl, rfl⟩
  intro dd e he hdd
  obtain ⟨h1, h2, h3⟩ := reconcileEntry_frame ts e he dd
  refine ⟨?_, ?_, ?_⟩
  · intro x hxC hxD
    rw [h1 x hxC hxD]
    exact hdd.1 x hxC hxD
  · intro x
    rw [h2 x]
    exact hdd.2.1 x
  · rw [h3]
    exact hdd.2.2

/-- Witness for C8 at a concrete Document: reconciling entry 3 of `exDoc`
into container 12 and out of container 10 leaves container 11 untouched,
keeps every reference to entries other than 3 in containers 10 and 11, and
does not touch the entry table. -/
theorem reconcile_frame_witness :
    childrenOf (reconcile exDoc ⟨[3], [12], [10]⟩).1 11 = childrenOf exDoc 11 ∧
    foreignRefs [3] (reconcile exDoc ⟨[3], [12], [10]⟩).1 10 =
      foreignRefs [3] exDoc 10 ∧
    (reconcile exDoc ⟨[3], [12], [10]⟩).1.entries = exDoc.entries :=
  ⟨(reconcile_frame exDoc ⟨[3], [12], [10]⟩).1 11 (by decide) (by decide),
   (reconcile_frame exDoc ⟨[3], [12], [10]⟩).2.1 10,
   (reconcile_frame exDoc ⟨[3], [12], [10]⟩).2.2⟩


theorem unlinkStep_noop (e : Nat) (d : Document) (cd : Nat) (c : Container)
    (hfc : findContainer d cd = some c) (hcont : contains d cd e = false) :
    unlinkStep e d cd = (d, none) := by
  unfold unlinkStep
  rw [unlink_eq d cd e c hfc]
  have hany : c.children.any (fun r => r.target = e) = false := by
    rw [contains_children, childrenOf_eq_of_find d cd c hfc] at hcont
    exact hcont
  have hself : updateContainer d cd
      (fun ch => ch.filter (fun r => r.target ≠ e)) = d := by
    apply updateContainer_self_id d cd _ c hfc
    apply List.filter_eq_self.mpr
    intro r hr
    rw [List.any_eq_false] at hany
    simpa using hany r hr
  rw [hself]

theorem stFold_unlink_post (e : Nat) :
    ∀ (rem : List Nat) (dd ddA : Document),
      stFold (unlinkStep e) dd rem = (ddA, none) →
      ∀ cd ∈ rem, (findContainer ddA cd).isSome = true ∧
        contains ddA cd e = false := by
  intro rem
  induction rem with
  | nil =>
      intro dd ddA _ cd hcd
      cases hcd
  | cons a as ih =>
      intro dd ddA hfold cd hcd
      obtain ⟨ddB, hstep, hrest⟩ := stFold_step_none _ dd ddA a as hfold
      rcases List.mem_cons.mp hcd with h | h
      · subst h
        constructor
        · have h1 := unlinkStep_none_isSome e dd ddB cd hstep
          have h2 := unlinkStep_isSome e dd cd cd
          rw [hstep] at h2
          have h3 := stFold_isSome_all (unlinkStep e) (unlinkStep_isSome e) as ddB cd
          rw [hrest] at h3
          rw [h3, h2]
          exact h1
        · have h2 : contains ddB cd e = false := by
            have h3 := unlinkStep_contains_self e dd cd
            rw [hstep] at h3
            exact h3
          have h4 := stFold_preserves (unlinkStep e)
            (fun x => contains x cd e = false)
            (fun x y hx => unlinkStep_contains_false e e x y cd hx) as ddB h2
          rw [hrest] at h4
          exact h4
      · exact ih ddB ddA hrest cd h

theorem stFold_link_post (e : Nat) (p : String) :
    ∀ (addTo : List Nat) (dd ddA : Document),
      stFold (linkStep e p) dd addTo = (ddA, none) →
      ∀ ca ∈ addTo, contains ddA ca e = true := by
  intro addTo
  induction addTo with
  | nil =>
      intro dd ddA _ ca hca
      cases hca
  | cons a as ih =>
      intro dd ddA hfold ca hca
      obtain ⟨ddB, hstep, hrest⟩ := stFold_step_none _ dd ddA a as hfold
      rcases List.mem_cons.mp hca with h | h
      · subst h
        have h1 := linkStep_none_contains_self e p dd ddB ca hstep
        have h2 := stFold_preserves (linkStep e p)
          (fun x => contains x ca e = true)
          (fun x y hx => linkStep_contains_true e e p x y ca hx) as ddB h1
        rw [hrest] at h2
        exact h2
      · exact ih ddB ddA hrest ca h

theorem reconcileEntry_post (ts : TargetState)
    (hdisj : ∀ c ∈ ts.addTo, c ∉ ts.removeFrom)
    (e : Nat) (dd dd1 : Document)
    (h : reconcileEntry ts dd e = (dd1, none)) :
    (∀ cd ∈ ts.removeFrom, (findContainer dd1 cd).isSome = true ∧
      contains dd1 cd e = false) ∧
    (∀ ca ∈ ts.addTo, contains dd1 ca e = true) := by
  obtain ⟨dA, hU, hL⟩ := reconcileEntry_none_split ts dd dd1 e h
  constructor
  · intro cd hcd
    obtain ⟨hs, hc⟩ := stFold_unlink_post e ts.removeFrom dd dA hU cd hcd
    constructor
    · have h3 := stFold_isSome_all (linkStep e "") (linkStep_isSome e "")
        ts.addTo dA cd
      rw [hL] at h3
      rw [h3]
      exact hs
    · have h4 := stFold_preserves_mem (linkStep e "")
        (fun x => contains x cd e = false) ts.addTo
        (fun x y hy hx => by
          have hyc : cd ≠ y := fun hye => (hdisj y hy) (by rw [← hye]; exact hcd)
          show contains (linkStep e "" x y).1 cd e = false
          rw [linkStep_contains_ne e e "" x y cd hyc]
          exact hx) dA hc
      rw [hL] at h4
      exact h4
  · intro ca hca
    exact stFold_link_post e "" ts.addTo dA dd1 hL ca hca

theorem reconcileEntry_keeps (ts : TargetState)
    (hdisj : ∀ c ∈ ts.addTo, c ∉ ts.removeFrom)
    (e e2 : Nat) (dd dd1 : Document)
    (h : reconcileEntry ts dd e2 = (dd1, none))
    (hQ : (∀ cd ∈ ts.removeFrom, (findContainer dd cd).isSome = true ∧
        contains dd cd e = false) ∧
      (∀ ca ∈ ts.addTo, contains dd ca e = true)) :
    (∀ cd ∈ ts.removeFrom, (findContainer dd1 cd).isSome = true ∧
      contains dd1 cd e = false) ∧
    (∀ ca ∈ ts.addTo, contains dd1 ca e = true) := by
  obtain ⟨dA, hU, hL⟩ := reconcileEntry_none_split ts dd dd1 e2 h
  constructor
  · intro cd hcd
    obtain ⟨hs, hc⟩ := hQ.1 cd hcd
    constructor
    · have h2 := stFold_isSome_all (unlinkStep e2) (unlinkStep_isSome e2)
        ts.removeFrom dd cd
      rw [hU] at h2
      have h3 := stFold_isSome_all (linkStep e2 "") (linkStep_isSome e2 "")
        ts.addTo dA cd
      rw [hL] at h3
      rw [h3, h2]
      exact hs
    · have h2 := stFold_preserves (unlinkStep e2)
        (fun x => contains x cd e = false)
        (fun x y hx => unlinkStep_contains_false e2 e x y cd hx)
        ts.removeFrom dd hc
      rw [hU] at h2
      have h3 := stFold_preserves_mem (linkStep e2 "")
        (fun x => contains x cd e = false) ts.addTo
        (fun x y hy hx => by
          have hyc : cd ≠ y := fun hye => (hdisj y hy) (by rw [← hye]; exact hcd)
          show contains (linkStep e2 "" x y).1 cd e = false
          rw [linkStep_contains_ne e2 e "" x y cd hyc]
          exact hx) dA h2
      rw [hL] at h3
      exact h3
  · intro ca hca
    have hc := hQ.2 ca hca
    have h2 := stFold_preserves_mem (unlinkStep e2)
      (fun x => contains x ca e = true) ts.removeFrom
      (fun x y hy hx => by
        have hyc : ca ≠ y := fun hye => (hdisj ca hca) (by rw [hye]; exact hy)
        show contains (unlinkStep e2 x y).1 ca e = true
        rw [unlinkStep_contains_ne e2 e x y ca hyc]
        exact hx) dd hc
    rw [hU] at h2
    have h3 := stFold_preserves (linkStep e2 "")
      (fun x => contains x ca e = true)
      (fun x y hx => linkStep_contains_true e2 e "" x y ca hx) ts.addTo dA h2
    rw [hL] at h3
    exact h3

theorem reconcile_post (ts : TargetState)
    (hdisj : ∀ c ∈ ts.addTo, c ∉ ts.removeFrom) :
    ∀ (l : List Nat) (dd dd1 : Document),
      stFold (reconcileEntry ts) dd l = (dd1, none) →
      ∀ e ∈ l,
        (∀ cd ∈ ts.removeFrom, (findContainer dd1 cd).isSome = true ∧
          contains dd1 cd e = false) ∧
        (∀ ca ∈ ts.addTo, contains dd1 ca e = true) := by
  intro l
  induction l with
  | nil =>
      intro dd dd1 _ e he
      cases he
  | cons a as ih =>
      intro dd dd1 hfold e he
      obtain ⟨dA, hstep, hrest⟩ := stFold_step_none _ dd dd1 a as hfold
      rcases List.mem_cons.mp he with h | h
      · subst h
        have hQ := reconcileEntry_post ts hdisj e dd dA hstep
        exact stFold_none_preserves (reconcileEntry ts)
          (fun x => (∀ cd ∈ ts.removeFrom, (findContainer x cd).isSome = true ∧
              contains x cd e = false) ∧
            (∀ ca ∈ ts.addTo, contains x ca e = true)) as
          (fun x y x1 _ hy hQx => reconcileEntry_keeps ts hdisj e y x x1 hy hQx)
          dA dd1 hrest hQ
      · exact ih dA dd1 hrest e h

theorem reconcile_noop (d : Document) (ts : TargetState)
    (h : ∀ e ∈ ts.entries,
      (∀ cd ∈ ts.removeFrom, (findContainer d cd).isSome = true ∧
        contains d cd e = false) ∧
      (∀ ca ∈ ts.addTo, contains d ca e = true)) :
    reconcile d ts = (d, none) := by
  unfold reconcile
  apply stFold_noop
  intro e he
  obtain ⟨hD, hC⟩ := h e he
  unfold reconcileEntry
  have hu : stFold (unlinkStep e) d ts.removeFrom = (d, none) := by
    apply stFold_noop
    intro cd hcd
    obtain ⟨hs, hcont⟩ := hD cd hcd
    obtain ⟨c, hfc⟩ := Option.isSome_iff_exists.mp hs
    exact unlinkStep_noop e d cd c hfc hcont
  rw [hu]
  show stFold (linkStep e "") d ts.addTo = (d, none)
  apply stFold_noop
  intro ca hca
  exact linkStep_skip e "" d ca (hC ca hca)

theorem alreadyCorrect_to (d : Document) (ts : TargetState)
    (h : alreadyCorrect d ts = true) :
    ∀ e ∈ ts.entries,
      (∀ cd ∈ ts.removeFrom, (findContainer d cd).isSome = true ∧
        contains d cd e = false) ∧
      (∀ ca ∈ ts.addTo, contains d ca e = true) := by
  unfold alreadyCorrect at h
  rw [List.all_eq_true] at h
  intro e he
  have h1 := h e he
  rw [Bool.and_eq_true] at h1
  obtain ⟨hD, hC⟩ := h1
  rw [List.all_eq_true] at hD hC
  constructor
  · intro cd hcd
    have h2 := hD cd hcd
    rw [decide_eq_true_eq] at h2
    exact ⟨h2.1, Bool.eq_false_iff.mpr h2.2⟩
  · intro ca hca
    exact hC ca hca

/-- Claim C4: when the declared addition and removal container sets are
disjoint (the target state is satisfiable), running the Reconciler twice in
succession yields exactly the Document of a single run — the second run
returns its input with no error — and running it against an
already-correct Document performs zero mutations, returning the Document
unchanged rather than erroring (already-placed entries are skipped). -/
theorem reconcile_idempotent (d : Document) (ts : TargetState)
    (hdisj : ∀ c ∈ ts.addTo, c ∉ ts.removeFrom) :
    (∀ d1, reconcile d ts = (d1, none) → reconcile d1 ts = (d1, none)) ∧
    (alreadyCorrect d ts = true → reconcile d ts = (d, none)) := by
  constructor
  · intro d1 h
    apply reconcile_noop d1 ts
    exact reconcile_post ts hdisj ts.entries d d1 h
  · intro h
    exact reconcile_noop d ts (alreadyCorrect_to d ts h)

/-- Witness for C4 at a concrete Document: moving entry 3 of `exDoc` out of
container 10 into container 12 succeeds, and re-running the Reconciler on
the result returns it unchanged with no error. -/
theorem reconcile_idempotent_witness :
    reconcile (reconcile exDoc ⟨[3], [12], [10]⟩).1 ⟨[3], [12], [10]⟩ =
      ((reconcile exDoc ⟨[3], [12], [10]⟩).1, none) :=
  (reconcile_idempotent exDoc ⟨[3], [12], [10]⟩ (by decide)).1
    (reconcile exDoc ⟨[3], [12], [10]⟩).1 (by rfl)


/-- Claim C5: for an entry that is a member of only container `a`,
Reassign(e, remove_from = a, add_to = b) succeeds, afterwards the entry is
out of `a`, in `b`, referenced exactly once in `b` (unlink runs before
link, so no duplicate is created in the destination), and every other
container's membership of the entry is exactly as before. -/
theorem reassign_moves (d : Document) (e a b : Nat) (ca cb : Container)
    (hab : a ≠ b)
    (hentry : hasEntry d e = true)
    (hfa : findContainer d a = some ca)
    (hfb : findContainer d b = some cb)
    (honly : ∀ x, x ≠ a → contains d x e = false) :
    ∃ d1, reassignSt d e [a] [b] = (d1, none) ∧
      contains d1 a e = false ∧
      contains d1 b e = true ∧
      (childrenOf d1 b).countP (fun r => r.target = e) = 1 ∧
      (∀ x, x ≠ a → x ≠ b → contains d1 x e = contains d x e) := by
  have hba : b ≠ a := fun h => hab h.symm
  set dA := updateContainer d a (fun ch => ch.filter (fun r => r.target ≠ e)) with hdA
  have hstep1 : unlinkStep e d a = (dA, none) := by
    unfold unlinkStep
    rw [unlink_eq d a e ca hfa]
  have hfold1 : stFold (unlinkStep e) d [a] = (dA, none) := by
    unfold stFold
    rw [hstep1]
    rfl
  have hAhas : hasEntry dA e = true := hentry
  have hfAb : findContainer dA b = some cb :=
    (findContainer_update_ne d a _ b hba).trans hfb
  have hanyb : cb.children.any (fun r => r.target = e) = false := by
    have hc := honly b hba
    unfold contains at hc
    rw [hfb] at hc
    exact hc
  have hcontAb : contains dA b e = false :=
    (contains_update_ne d a _ b e hba).trans (honly b hba)
  set dB := updateContainer dA b (fun ch => ch ++ [⟨e, ""⟩]) with hdB
  have hlinkeq : link dA b e "" = .ok dB := link_eq dA b e "" cb hAhas hfAb hanyb
  have hstep2 : linkStep e "" dA b = (dB, none) := by
    unfold linkStep
    rw [if_neg (by simp [hcontAb]), hlinkeq]
  have hfold2 : stFold (linkStep e "") dA [b] = (dB, none) := by
    unfold stFold
    rw [hstep2]
    rfl
  have hre : reassignSt d e [a] [b] = (dB, none) := by
    unfold reassignSt
    rw [hfold1]
    exact hfold2
  refine ⟨dB, hre, ?_, ?_, ?_, ?_⟩
  · have h1 : contains dB a e = contains dA a e :=
      contains_update_ne dA b _ a e hab
    rw [h1]
    unfold contains
    rw [findContainer_update_self d a _ ca hfa]
    exact any_filter_ne ca.children e
  · unfold contains
    rw [findContainer_update_self dA b _ cb hfAb]
    simp
  · rw [childrenOf_update_self dA b _ cb hfAb, List.countP_append]
    have h0 : cb.children.countP (fun r => decide (r.target = e)) = 0 := by
      rw [List.countP_eq_zero]
      intro r hr
      rw [List.any_eq_false] at hanyb
      exact hanyb r hr
    rw [h0]
    simp
  · intro x hxa hxb
    exact (contains_update_ne dA b _ x e hxb).trans
      (contains_update_ne d a _ x e hxa)

/-- Witness for C5 at a concrete Document: entry 3 of `exDoc` is only in
container 10; reassigning it out of 10 into 12 lands it exactly once in 12
and nowhere else new. -/
theorem reassign_moves_witness :
    ∃ d1, reassignSt exDoc 3 [10] [12] = (d1, none) ∧
      contains d1 10 3 = false ∧
      contains d1 12 3 = true ∧
      (childrenOf d1 12).countP (fun r => r.target = 3) = 1 ∧
      (∀ x, x ≠ 10 → x ≠ 12 → contains d1 x 3 = contains exDoc x 3) := by
  apply reassign_moves exDoc 3 10 12
    ⟨10, "group", [⟨1, "a"⟩, ⟨2, "b"⟩, ⟨1, "a"⟩, ⟨3, "c"⟩]⟩ ⟨12, "phase", []⟩
    (by decide) (by rfl) (by rfl) (by rfl)
  intro x hx
  by_cases h11 : x = 11
  · subst h11; rfl
  · by_cases h12 : x = 12
    · subst h12; rfl
    · unfold contains findContainer exDoc
      simp [List.find?, Ne.symm hx, Ne.symm h11, Ne.symm h12]

theorem mem_updateChildren (cs : List Container) (cid : Nat)
    (f : List Reference → List Reference) (c1 : Container)
    (h : c1 ∈ updateChildren cs cid f) :
    c1 ∈ cs ∨ ∃ c, c ∈ cs ∧ c1 = { c with children := f c.children } := by
  induction cs with
  | nil => cases h
  | cons a rest ih =>
      by_cases ha : a.id = cid
      · simp only [updateChildren, if_pos ha] at h
        rcases List.mem_cons.mp h with h1 | h1
        · exact Or.inr ⟨a, List.mem_cons_self a rest, h1⟩
        · exact Or.inl (List.mem_cons_of_mem a h1)
      · simp only [updateChildren, if_neg ha] at h
        rcases List.mem_cons.mp h with h1 | h1
        · rw [h1]
          exact Or.inl (List.mem_cons_self a rest)
        · rcases ih h1 with h2 | ⟨c, hc, h2⟩
          · exact Or.inl (List.mem_cons_of_mem a h2)
          · exact Or.inr ⟨c, List.mem_cons_of_mem a hc, h2⟩

theorem wfb_mem (d : Document) (hw : wfb d = true) (c : Container)
    (hc : c ∈ d.containers) (r : Reference) (hr : r ∈ c.children) :
    hasEntry d r.target = true := by
  unfold wfb at hw
  rw [List.all_eq_true] at hw
  have h1 := hw c hc
  rw [List.all_eq_true] at h1
  exact h1 r hr

theorem wfb_of_forall (d : Document)
    (h : ∀ c ∈ d.containers, ∀ r ∈ c.children, hasEntry d r.target = true) :
    wfb d = true := by
  unfold wfb
  rw [List.all_eq_true]
  intro c hc
  rw [List.all_eq_true]
  intro r hr
  exact h c hc r hr

theorem wfb_updateContainer (d : Document) (cid : Nat)
    (f : List Reference → List Reference) (hw : wfb d = true)
    (hf : ∀ ch, (∀ r ∈ ch, hasEntry d r.target = true) →
      ∀ r ∈ f ch, hasEntry d r.target = true) :
    wfb (updateContainer d cid f) = true := by
  apply wfb_of_forall
  intro c1 hc1 r hr
  have hmem : c1 ∈ updateChildren d.containers cid f := hc1
  rw [hasEntry_update]
  rcases mem_updateChildren d.containers cid f c1 hmem with h1 | ⟨c, hc, h1⟩
  · exact wfb_mem d hw c1 h1 r hr
  · rw [h1] at hr
    exact hf c.children (fun r2 hr2 => wfb_mem d hw c hc r2 hr2) r hr

theorem wfb_unlinkStep (e : Nat) (d : Document) (c : Nat)
    (hw : wfb d = true) : wfb (unlinkStep e d c).1 = true := by
  rcases unlinkStep_result e d c with ⟨-, h1, -⟩ | ⟨-, h1, -⟩
  · rw [h1]; exact hw
  · rw [h1]
    apply wfb_updateContainer d c _ hw
    intro ch hch r hr
    exact hch r (List.mem_of_mem_filter hr)

theorem wfb_linkStep (e : Nat) (p : String) (d : Document) (c : Nat)
    (hw : wfb d = true) : wfb (linkStep e p d c).1 = true := by
  rcases linkStep_result e p d c with h1 | ⟨h1, -, he, -⟩
  · rw [h1]; exact hw
  · rw [h1]
    apply wfb_updateContainer d c _ hw
    intro ch hch r hr
    rcases List.mem_append.mp hr with h2 | h2
    · exact hch r h2
    · rcases List.mem_singleton.mp h2 with h3
      rw [h3]
      exact he

theorem wfb_applyOp (d : Document) (op : Op) (hw : wfb d = true) :
    wfb (applyOp d op).1 = true := by
  cases op with
  | insert e strict =>
      simp only [applyOp]
      unfold addEntry
      by_cases hdup : (strict &&
          d.entries.any fun x =>
            x.displayName = e.displayName && x.kind = e.kind) = true
      · rw [if_pos hdup]
        exact hw
      · rw [if_neg hdup]
        show wfb { d with entries := d.entries ++ [e] } = true
        apply wfb_of_forall
        intro c hc r hr
        have h1 : hasEntry d r.target = true := wfb_mem d hw c hc r hr
        show ((d.entries ++ [e]).any fun x => x.id = r.target) = true
        rw [List.any_append]
        unfold hasEntry at h1
        rw [h1]
        rfl
  | link cid eid prov =>
      simp only [applyOp]
      cases hl : link d cid eid prov with
      | error er => exact hw
      | ok d1 =>
          obtain ⟨he, cc, hfc, -, heq⟩ := link_ok_inv d cid eid prov d1 hl
          show wfb d1 = true
          rw [heq]
          apply wfb_updateContainer d cid _ hw
          intro ch hch r hr
          rcases List.mem_append.mp hr with h2 | h2
          · exact hch r h2
          · rcases List.mem_singleton.mp h2 with h3
            rw [h3]
            exact he
  | unlink cid eid => exact wfb_unlinkStep eid d cid hw
  | dedup cid =>
      simp only [applyOp]
      cases hl : deduplicate d cid with
      | error er => exact hw
      | ok pr =>
          cases pr with
          | mk d1 removed =>
              show wfb d1 = true
              unfold deduplicate at hl
              cases hf : findContainer d cid with
              | none => rw [hf] at hl; cases hl
              | some c =>
                  rw [hf] at hl
                  simp only [Except.ok.injEq, Prod.mk.injEq] at hl
                  rw [← hl.1]
                  apply wfb_updateContainer d cid _ hw
                  intro ch hch r hr
                  have hcin : c ∈ d.containers := List.mem_of_find?_eq_some hf
                  have hrc : r ∈ c.children := by
                    have hperm := dedupChildren_perm c.children []
                    exact hperm.mem_iff.mp (List.mem_append.mpr (Or.inl hr))
                  exact wfb_mem d hw c hcin r hrc
  | reassign eid removeFrom addTo =>
      simp only [applyOp]
      unfold reassignSt
      cases hfold : stFold (unlinkStep eid) d removeFrom with
      | mk d1 err =>
          have hw1 : wfb d1 = true := by
            have h2 := stFold_preserves (unlinkStep eid) (fun dd => wfb dd = true)
              (fun dd y hdd => wfb_unlinkStep eid dd y hdd) removeFrom d hw
            rw [hfold] at h2
            exact h2
          cases err with
          | some er => exact hw1
          | none =>
              show wfb (stFold (linkStep eid "") d1 addTo).1 = true
              exact stFold_preserves (linkStep eid "") (fun dd => wfb dd = true)
                (fun dd y hdd => wfb_linkStep eid "" dd y hdd) addTo d1 hw1

/-- Claim C2: for every Document reachable from a well-formed Document by
any sequence of the mutation operations (insert entry, link, unlink,
deduplicate, reassign), every Reference target entry id exists as a real
Entry: no operation, and no partially applied composed operation, ever
introduces a dangling reference. -/
theorem run_preserves_no_dangling (d : Document) (ops : List Op)
    (hw : wfb d = true) : wfb (run d ops) = true := by
  induction ops generalizing d with
  | nil => exact hw
  | cons op rest ih =>
      unfold run
      rw [List.foldl_cons]
      exact ih (applyOp d op).1 (wfb_applyOp d op hw)

/-- Witness for C2 at a concrete Document: a five-operation session on
`exDoc` exercising insert, link, dedup, reassign and unlink leaves every
reference target backed by a real entry. -/
theorem run_preserves_no_dangling_witness :
    wfb (run exDoc
      [Op.insert ⟨4, "src", "d.swift", []⟩ true,
       Op.link 12 4 "d",
       Op.dedup 10,
       Op.reassign 3 [10] [12],
       Op.unlink 11 2]) = true :=
  run_preserves_no_dangling exDoc
    [Op.insert ⟨4, "src", "d.swift", []⟩ true,
     Op.link 12 4 "d",
     Op.dedup 10,
     Op.reassign 3 [10] [12],
     Op.unlink 11 2] (by rfl)

theorem nextIdAux_fresh :
    ∀ (fuel i id i1 : Nat) (used returned : List Nat) (supply : Nat → Nat),
      nextIdAux used returned supply fuel i = .ok (id, i1) →
      id ∉ used ∧ id ∉ returned := by
  intro fuel
  induction fuel with
  | zero =>
      intro i id i1 used returned supply h
      cases h
  | succ n ih =>
      intro i id i1 used returned supply h
      unfold nextIdAux at h
      by_cases hc : (used.contains (supply i) || returned.contains (supply i)) = true
      · rw [if_pos hc] at h
        exact ih (i + 1) id i1 used returned supply h
      · rw [if_neg hc] at h
        simp only [Except.ok.injEq, Prod.mk.injEq] at h
        obtain ⟨h2, -⟩ := h
        rw [← h2]
        constructor
        · intro hmem
          apply hc
          simp [hmem]
        · intro hmem
          apply hc
          simp [hmem]

/-- Claim C1: `next_id` returns an identifier distinct from every
identifier currently present in the Document and from every identifier it
has previously returned in this process — the candidate is checked against
the live in-use set (for every sampling stream, even an adversarial one),
not merely sampled — and the accepted identifier is recorded in the
generator state. -/
theorem nextId_fresh (d : Document) (g : Gen) (fuel id : Nat) (g1 : Gen)
    (h : nextId d g fuel = .ok (id, g1)) :
    id ∉ usedIds d ∧ id ∉ g.returned ∧ g1.returned = id :: g.returned := by
  unfold nextId at h
  cases haux : nextIdAux (usedIds d) g.returned g.supply fuel g.idx with
  | error e =>
      rw [haux] at h
      exact Except.noConfusion h
  | ok pr =>
      cases pr with
      | mk cand i1 =>
          rw [haux] at h
          injection h with h1
          injection h1 with h2 h3
          obtain ⟨hu, hr⟩ :=
            nextIdAux_fresh fuel g.idx cand i1 (usedIds d) g.returned g.supply haux
          subst h2
          refine ⟨hu, hr, ?_⟩
          rw [← h3]

/-- Witness for C1 at a concrete Document: with the identity sampling
stream and one previously returned identifier, the generator skips nothing
and returns 0, which is indeed outside the in-use set and the returned
list, and records it. -/
theorem nextId_fresh_witness :
    (0 : Nat) ∉ usedIds exDoc ∧ (0 : Nat) ∉ [4] ∧
      (⟨[0, 4], fun n => n, 1⟩ : Gen).returned = 0 :: [4] :=
  nextId_fresh exDoc ⟨[4], fun n => n, 0⟩ 5 0 ⟨[0, 4], fun n => n, 1⟩ (by rfl)


theorem generate_uuid_factor (r : Fin 32 → Fin 16) :
    generate_uuid r = bound92 (delete12 (nib24 r)) := rfl

theorem generate_uuid_card : Nat.card (Set.range generate_uuid) ≤ 2 ^ 92 := by
  have hsub : Set.range generate_uuid ⊆ Set.range bound92 := by
    rintro s ⟨r, rfl⟩
    exact ⟨delete12 (nib24 r), (generate_uuid_factor r).symm⟩
  have hfin : (Set.range bound92).Finite := Set.finite_range bound92
  have h1 : Nat.card (Set.range generate_uuid) ≤ Nat.card (Set.range bound92) :=
    Nat.card_mono hfin hsub
  have h2 : Nat.card (Set.range bound92) ≤ Nat.card (Fin 23 → Fin 16) :=
    Finite.card_range_le bound92
  have h3 : Nat.card (Fin 23 → Fin 16) = 2 ^ 92 := by
    rw [Nat.card_fun]
    simp only [Nat.card_eq_fintype_card, Fintype.card_fin]
    norm_num
  rw [h3] at h2
  exact h1.trans h2

theorem phase6FileId_card : Nat.card (Set.range phase6FileId) ≤ 2 ^ 64 := by
  have h2 := Finite.card_range_le phase6FileId
  have h3 : Nat.card (Fin 16 → Fin 16) = 2 ^ 64 := by
    rw [Nat.card_fun]
    simp only [Nat.card_eq_fintype_card, Fintype.card_fin]
    norm_num
  rw [h3] at h2
  exact h2

/-- Counterexample to C9: neither identifier generator of the repository
draws from a sample space of at least 96 bits.  The phase-6 generator
(`add_phase6_files.py` lines 44-45) emits 16 hex digits, at most 2 to the
64 possible tokens; `generate_uuid` (`add_phase2_files.py` lines 11-13)
keeps the first 24 hex digits of a version-4 UUID, whose fixed version
nibble caps its range at 2 to the 92 (in fact 2 to the 90, as the variant
nibble loses two further bits).  Both are strictly below 2 to the 96. -/
theorem identifier_entropy_counterexample :
    Nat.card (Set.range phase6FileId) < 2 ^ 96 ∧
    Nat.card (Set.range generate_uuid) < 2 ^ 96 :=
  ⟨lt_of_le_of_lt phase6FileId_card (by norm_num),
   lt_of_le_of_lt generate_uuid_card (by norm_num)⟩

/-- Claim C9 amended: every identifier produced by the generators is a
fixed-width uppercase-hex token — 24 characters from `generate_uuid`,
16 characters from the phase-6 generator — but the sample spaces fall
short of 96 bits: `generate_uuid` has at most 2 to the 92 possible outputs
(the version-4 UUID masks fix one nibble entirely and half of another) and
the phase-6 generator at most 2 to the 64. -/
theorem identifier_width_entropy :
    (∀ r, (generate_uuid r).length = 24) ∧
    (∀ r, (phase6FileId r).length = 16) ∧
    Nat.card (Set.range generate_uuid) ≤ 2 ^ 92 ∧
    Nat.card (Set.range phase6FileId) ≤ 2 ^ 64 := by
  refine ⟨?_, ?_, generate_uuid_card, phase6FileId_card⟩
  · intro r
    unfold generate_uuid
    simp [String.length]
  · intro r
    unfold phase6FileId
    simp [String.length]


/-- Claim C10: in the insert-and-link scripts, every failed structural
lookup (Extensions group, Sources build phase, PBXFileReference or
PBXBuildFile section) makes the operation return failure before the single
final write, so nothing is ever written on the failure path and the
persisted manifest stays byte-for-byte unchanged — even when earlier
in-memory edits had already been applied. -/
theorem insert_scripts_no_write_on_failure :
    (∀ (fs : List FileUUIDs) (m : ManifestView),
      (addPhase2 fs m).1 = false → (addPhase2 fs m).2 = []) ∧
    (∀ (fs : List FileUUIDs) (m : ManifestView),
      (addPhase4 fs m).1 = false → (addPhase4 fs m).2 = []) := by
  constructor
  · intro fs m h
    obtain ⟨e, sf, fr, bf⟩ := m
    cases e with
    | none => rfl
    | some eCh =>
        cases sf with
        | none => rfl
        | some sFiles =>
            cases fr with
            | none => rfl
            | some refs =>
                cases bf with
                | none => rfl
                | some bfs => exact Bool.noConfusion h
  · intro fs m h
    obtain ⟨e, sf, fr, bf⟩ := m
    cases fr with
    | none => rfl
    | some refs =>
        cases bf with
        | none => rfl
        | some bfs =>
            cases e with
            | none => rfl
            | some eCh =>
                cases sf with
                | none => rfl
                | some sFiles => exact Bool.noConfusion h

/-- Witness for C10 at concrete inputs: a manifest whose Extensions group
regex fails makes the phase-2 script write nothing, and a manifest with
file-reference and build-file sections but no Extensions group makes the
phase-4 script write nothing even though its first two in-memory edits had
already been applied. -/
theorem insert_scripts_no_write_on_failure_witness :
    (addPhase2 [] ⟨none, none, none, none⟩).2 = [] ∧
    (addPhase4 [⟨"CallUIStateManager.swift", "p", "AAAA", "BBBB"⟩]
      ⟨none, some [], some [], some []⟩).2 = [] :=
  ⟨insert_scripts_no_write_on_failure.1 [] ⟨none, none, none, none⟩ (by rfl),
   insert_scripts_no_write_on_failure.2
     [⟨"CallUIStateManager.swift", "p", "AAAA", "BBBB"⟩]
     ⟨none, some [], some [], some []⟩ (by rfl)⟩


theorem hasEntry_eq_of_entries (d d1 : Document) (x : Nat)
    (h : d1.entries = d.entries) : hasEntry d1 x = hasEntry d x := by
  unfold hasEntry
  rw [h]

theorem stFold_entries_all (f : Document → α → Document × Option Err)
    (hstep : ∀ dd c, (f dd c).1.entries = dd.entries)
    (l : List α) (d : Document) :
    (stFold f d l).1.entries = d.entries :=
  stFold_preserves f (fun dd => dd.entries = d.entries)
    (fun dd y hdd => (hstep dd y).trans hdd) l d rfl

theorem stFold_unlink_ok (e : Nat) :
    ∀ (rem : List Nat) (d : Document),
      (∀ c ∈ rem, (findContainer d c).isSome = true) →
      (stFold (unlinkStep e) d rem).2 = none := by
  intro rem
  induction rem with
  | nil => intro d _; rfl
  | cons a as ih =>
      intro d hsome
      cases hstep : unlinkStep e d a with
      | mk dA er =>
          have her : er = none := by
            rcases unlinkStep_result e d a with ⟨hn, -, h2⟩ | ⟨-, -, h2⟩
            · have h1 := hsome a (List.mem_cons_self a as)
              rw [hn] at h1
              exact absurd h1 (by simp)
            · rw [hstep] at h2
              exact h2
          subst her
          unfold stFold
          rw [hstep]
          apply ih dA
          intro c hc
          have hiso := unlinkStep_isSome e d a c
          rw [hstep] at hiso
          rw [hiso]
          exact hsome c (List.mem_cons_of_mem a hc)

theorem linkStep_cases_none (e : Nat) (p : String) (cur curB : Document)
    (a : Nat) (h : linkStep e p cur a = (curB, none)) :
    (contains cur a e = true ∧ curB = cur) ∨
    (hasEntry cur e = true ∧ (findContainer cur a).isSome = true ∧
      curB = updateContainer cur a (fun ch => ch ++ [⟨e, p⟩])) := by
  unfold linkStep at h
  by_cases hc : contains cur a e = true
  · rw [if_pos hc] at h
    injection h with h1 h2
    exact Or.inl ⟨hc, h1.symm⟩
  · rw [if_neg hc] at h
    cases hl : link cur a e p with
    | error er => rw [hl] at h; simp at h
    | ok d1 =>
        rw [hl] at h
        injection h with h1 h2
        obtain ⟨he, cc, hfc, -, heq⟩ := link_ok_inv cur a e p d1 hl
        refine Or.inr ⟨he, by rw [hfc]; rfl, ?_⟩
        rw [← h1, heq]

theorem linkFold_success_inv (e : Nat) (d0 : Document) :
    ∀ (l : List Nat) (cur d1 : Document),
      stFold (linkStep e "") cur l = (d1, none) →
      hasEntry cur e = hasEntry d0 e →
      (∀ x, (findContainer cur x).isSome = (findContainer d0 x).isSome) →
      (∀ x, contains cur x e = true →
        contains d0 x e = true ∨ hasEntry d0 e = true) →
      ∀ c ∈ l, (findContainer d0 c).isSome = true ∧
        (hasEntry d0 e = true ∨ contains d0 c e = true) := by
  intro l
  induction l with
  | nil =>
      intro cur d1 _ _ _ _ c hc
      cases hc
  | cons a as ih =>
      intro cur d1 hfold hent hsome hcont c hc
      obtain ⟨curB, hstep, hrest⟩ := stFold_step_none _ cur d1 a as hfold
      rcases linkStep_cases_none e "" cur curB a hstep with
        ⟨hcc, hB⟩ | ⟨heE, hsA, hB⟩
      · rcases List.mem_cons.mp hc with h | h
        · subst h
          constructor
          · rw [← hsome c]
            exact contains_isSome cur c e hcc
          · rcases hcont c hcc with h1 | h1
            · exact Or.inr h1
            · exact Or.inl h1
        · rw [hB] at hrest
          exact ih cur d1 hrest hent hsome hcont c h
      · rcases List.mem_cons.mp hc with h | h
        · subst h
          constructor
          · rw [← hsome c]
            exact hsA
          · left
            rw [← hent]
            exact heE
        · refine ih curB d1 hrest ?_ ?_ ?_ c h
          · rw [hB, hasEntry_update]
            exact hent
          · intro x
            rw [hB, findContainer_update_isSome]
            exact hsome x
          · intro x hx
            by_cases hxa : x = a
            · right
              rw [← hent]
              exact heE
            · rw [hB, contains_update_ne cur a _ x e hxa] at hx
              exact hcont x hx

theorem linkFold_ok (e : Nat) (d0 : Document) :
    ∀ (l : List Nat) (cur : Document),
      hasEntry cur e = hasEntry d0 e →
      (∀ x, (findContainer cur x).isSome = (findContainer d0 x).isSome) →
      (∀ x, contains d0 x e = true → contains cur x e = true) →
      (∀ c ∈ l, (findContainer d0 c).isSome = true ∧
        (hasEntry d0 e = true ∨ contains d0 c e = true)) →
      (stFold (linkStep e "") cur l).2 = none := by
  intro l
  induction l with
  | nil => intro cur _ _ _ _; rfl
  | cons a as ih =>
      intro cur hent hsome hmono hcond
      obtain ⟨hsa, hor⟩ := hcond a (List.mem_cons_self a as)
      by_cases hc : contains cur a e = true
      · have hstep : linkStep e "" cur a = (cur, none) := linkStep_skip e "" cur a hc
        unfold stFold
        rw [hstep]
        exact ih cur hent hsome hmono
          (fun c hcmem => hcond c (List.mem_cons_of_mem a hcmem))
      · have hentD : hasEntry d0 e = true := by
          rcases hor with h1 | h1
          · exact h1
          · exact absurd (hmono a h1) hc
        have hentC : hasEntry cur e = true := by
          rw [hent]
          exact hentD
        have hsC : (findContainer cur a).isSome = true := by
          rw [hsome a]
          exact hsa
        obtain ⟨ca, hfca⟩ := Option.isSome_iff_exists.mp hsC
        have hany : ca.children.any (fun r => r.target = e) = false := by
          have hc1 : contains cur a e = false := Bool.eq_false_iff.mpr hc
          rw [contains_children, childrenOf_eq_of_find cur a ca hfca] at hc1
          exact hc1
        have hstep : linkStep e "" cur a =
            (updateContainer cur a (fun ch => ch ++ [⟨e, ""⟩]), none) := by
          unfold linkStep
          rw [if_neg hc, link_eq cur a e "" ca hentC hfca hany]
        unfold stFold
        rw [hstep]
        refine ih (updateContainer cur a (fun ch => ch ++ [⟨e, ""⟩])) ?_ ?_ ?_
          (fun c hcmem => hcond c (List.mem_cons_of_mem a hcmem))
        · rw [hasEntry_update]
          exact hent
        · intro x
          rw [findContainer_update_isSome]
          exact hsome x
        · intro x hx
          by_cases hxa : x = a
          · subst hxa
            rw [contains_children,
              childrenOf_update_self cur x _ ca hfca, List.any_append]
            simp
          · rw [contains_update_ne cur a _ x e hxa]
            exact hmono x hx

theorem stFold_error_localize (f : Document → α → Document × Option Err) :
    ∀ (l : List α) (d d1 : Document) (err : Err),
      stFold f d l = (d1, some err) →
      ∃ l1 x l2, l = l1 ++ x :: l2 ∧
        (stFold f d l1).2 = none ∧
        f (stFold f d l1).1 x = (d1, some err) := by
  intro l
  induction l with
  | nil =>
      intro d d1 err h
      injection h with h1 h2
      cases h2
  | cons a as ih =>
      intro d d1 err h
      unfold stFold at h
      cases hstep : f d a with
      | mk dA er1 =>
          rw [hstep] at h
          cases er1 with
          | none =>
              obtain ⟨l1, x, l2, heq, hpre, hfail⟩ := ih dA d1 err h
              have hfe : stFold f d (a :: l1) = stFold f dA l1 := by
                simp only [stFold]
                rw [hstep]
              refine ⟨a :: l1, x, l2, by rw [heq]; rfl, ?_, ?_⟩
              · rw [hfe]
                exact hpre
              · rw [hfe]
                exact hfail
          | some er =>
              injection h with h1 h2
              injection h2 with h3
              refine ⟨[], a, as, rfl, rfl, ?_⟩
              show f d a = (d1, some err)
              rw [hstep, h1, h3]


/-- Claim C7: every Document-model and Mutation-Engine error is returned to
the immediate caller and no operation swallows one or merely logs and
continues mutating.  In order: `get_entry` returns UnknownEntry exactly
when the id is unknown; insert returns DuplicateEntry exactly on a
strict-mode duplicate; link returns UnknownEntry, UnknownContainer or
DuplicateMembership exactly according to its first failing precondition
and nothing otherwise; unlink and Deduplicate return UnknownContainer
exactly when the container is unknown; the composed Reassign reports no
error precisely when every unlink sub-step found its container and every
link sub-step could either skip (membership already present after the
unlink phase) or link a known entry into a known container; and a failing
Reconciler run hands the caller exactly the first failing entry's error
together with the Document state reached before it, all earlier entries
having succeeded. -/
theorem errors_returned_to_caller (d : Document) :
    (∀ eid, (hasEntry d eid = false → get_entry d eid = .error .unknownEntry) ∧
      (hasEntry d eid = true → ∃ en, get_entry d eid = .ok en ∧ en.id = eid)) ∧
    (∀ e strict, (applyOp d (.insert e strict)).2 =
      (if (strict && d.entries.any (fun x =>
          x.displayName = e.displayName && x.kind = e.kind)) = true
       then some .duplicateEntry else none)) ∧
    (∀ cid eid prov, (applyOp d (.link cid eid prov)).2 =
      (if hasEntry d eid = false then some .unknownEntry
       else if (findContainer d cid).isSome = false then some .unknownContainer
       else if contains d cid eid = true then some .duplicateMembership
       else none)) ∧
    (∀ cid eid, (applyOp d (.unlink cid eid)).2 =
      (if (findContainer d cid).isSome = false then some .unknownContainer
       else none)) ∧
    (∀ cid, (applyOp d (.dedup cid)).2 =
      (if (findContainer d cid).isSome = false then some .unknownContainer
       else none)) ∧
    (∀ eid removeFrom addTo,
      (applyOp d (.reassign eid removeFrom addTo)).2 = none ↔
        ((∀ c ∈ removeFrom, (findContainer d c).isSome = true) ∧
         (∀ c ∈ addTo, (findContainer d c).isSome = true ∧
           (hasEntry d eid = true ∨
             contains (stFold (unlinkStep eid) d removeFrom).1 c eid = true)))) ∧
    (∀ ts d1 err, reconcile d ts = (d1, some err) →
      ∃ l1 e l2, ts.entries = l1 ++ e :: l2 ∧
        (stFold (reconcileEntry ts) d l1).2 = none ∧
        reconcileEntry ts (stFold (reconcileEntry ts) d l1).1 e =
          (d1, some err)) := by
  refine ⟨?_, ?_, ?_, ?_, ?_, ?_, ?_⟩
  · intro eid
    constructor
    · intro hfalse
      unfold get_entry
      cases hf : d.entries.find? (fun x => x.id = eid) with
      | none => rfl
      | some en =>
          exfalso
          have hmem := List.mem_of_find?_eq_some hf
          have hp := List.find?_some hf
          have h1 : hasEntry d eid = true := by
            unfold hasEntry
            rw [List.any_eq_true]
            exact ⟨en, hmem, hp⟩
          rw [hfalse] at h1
          cases h1
    · intro htrue
      unfold hasEntry at htrue
      rw [List.any_eq_true] at htrue
      obtain ⟨en, hmem, hp⟩ := htrue
      cases hf : d.entries.find? (fun x => x.id = eid) with
      | none =>
          rw [List.find?_eq_none] at hf
          exact absurd hp (hf en hmem)
      | some en2 =>
          refine ⟨en2, ?_, ?_⟩
          · unfold get_entry
            rw [hf]
          · have hp2 := List.find?_some hf
            simpa using hp2
  · intro e strict
    simp only [applyOp]
    unfold addEntry
    by_cases hdup : (strict && d.entries.any fun x =>
        x.displayName = e.displayName && x.kind = e.kind) = true
    · rw [if_pos hdup, if_pos hdup]
    · rw [if_neg hdup, if_neg hdup]
  · intro cid eid prov
    simp only [applyOp]
    by_cases he : hasEntry d eid = true
    · have heF : ¬hasEntry d eid = false := by
        rw [he]
        simp
      cases hf : findContainer d cid with
      | none =>
          have hlink : link d cid eid prov = .error .unknownContainer := by
            unfold link
            rw [if_pos he, hf]
          rw [hlink, if_neg heF, if_pos (by rfl)]
      | some c =>
          by_cases hc : contains d cid eid = true
          · have hany : c.children.any (fun r => r.target = eid) = true := by
              rw [contains_children, childrenOf_eq_of_find d cid c hf] at hc
              exact hc
            have hlink : link d cid eid prov = .error .duplicateMembership := by
              unfold link
              rw [if_pos he, hf]
              simp [hany]
            rw [hlink, if_neg heF, if_neg (by simp : ¬(some c).isSome = false),
              if_pos hc]
          · have hany : c.children.any (fun r => r.target = eid) = false := by
              have hc1 : contains d cid eid = false := Bool.eq_false_iff.mpr hc
              rw [contains_children, childrenOf_eq_of_find d cid c hf] at hc1
              exact hc1
            have hlink := link_eq d cid eid prov c he hf hany
            rw [hlink, if_neg heF, if_neg (by simp : ¬(some c).isSome = false),
              if_neg hc]
    · have heq : hasEntry d eid = false := Bool.eq_false_iff.mpr he
      have hlink : link d cid eid prov = .error .unknownEntry := by
        unfold link
        rw [if_neg he]
      rw [hlink, if_pos heq]
  · intro cid eid
    simp only [applyOp]
    rcases unlinkStep_result eid d cid with ⟨hn, -, h2⟩ | ⟨hs, -, h2⟩
    · rw [h2, if_pos (by rw [hn]; rfl)]
    · rw [h2, if_neg (by rw [hs]; simp)]
  · intro cid
    simp only [applyOp]
    cases hf : findContainer d cid with
    | none =>
        have hded : deduplicate d cid = .error .unknownContainer := by
          unfold deduplicate
          rw [hf]
        rw [hded, if_pos (by rfl)]
    | some c =>
        have hded : deduplicate d cid =
            .ok (updateContainer d cid (fun _ => (dedupChildren c.children []).1),
              (dedupChildren c.children []).2) := by
          unfold deduplicate
          rw [hf]
        rw [hded, if_neg (by simp : ¬(some c).isSome = false)]
  · intro eid removeFrom addTo
    simp only [applyOp]
    constructor
    · intro hnone
      unfold reassignSt at hnone
      cases hfold : stFold (unlinkStep eid) d removeFrom with
      | mk dA er =>
          rw [hfold] at hnone
          cases er with
          | some e2 => exact absurd hnone (by simp)
          | none =>
              change (stFold (linkStep eid "") dA addTo).2 = none at hnone
              have hdA1 : (stFold (unlinkStep eid) d removeFrom).1 = dA := by
                rw [hfold]
              constructor
              · exact stFold_none_unlink eid removeFrom d dA hfold
              · intro c hc
                have hpair : stFold (linkStep eid "") dA addTo =
                    ((stFold (linkStep eid "") dA addTo).1, none) := by
                  rw [← hnone]
                obtain ⟨hsA, horA⟩ := linkFold_success_inv eid dA addTo dA
                  (stFold (linkStep eid "") dA addTo).1 hpair rfl (fun x => rfl)
                  (fun x h => Or.inl h) c hc
                constructor
                · have hiso := stFold_isSome_all (unlinkStep eid)
                    (unlinkStep_isSome eid) removeFrom d c
                  rw [hdA1] at hiso
                  rw [← hiso]
                  exact hsA
                · rcases horA with h1 | h1
                  · left
                    have hent := stFold_entries_all (unlinkStep eid)
                      (unlinkStep_entries eid) removeFrom d
                    rw [hdA1] at hent
                    rw [← hasEntry_eq_of_entries d dA eid hent]
                    exact h1
                  · right
                    exact h1
    · rintro ⟨hrem, hadd⟩
      unfold reassignSt
      have hu2 : (stFold (unlinkStep eid) d removeFrom).2 = none :=
        stFold_unlink_ok eid removeFrom d hrem
      cases hfoldU : stFold (unlinkStep eid) d removeFrom with
      | mk dA er =>
          have her : er = none := by
            rw [hfoldU] at hu2
            exact hu2
          subst her
          change (stFold (linkStep eid "") dA addTo).2 = none
          have hdA1 : (stFold (unlinkStep eid) d removeFrom).1 = dA := by
            rw [hfoldU]
          refine linkFold_ok eid dA addTo dA rfl (fun x => rfl) (fun x h => h) ?_
          intro c hc
          obtain ⟨hsD, horD⟩ := hadd c hc
          constructor
          · have hiso := stFold_isSome_all (unlinkStep eid)
              (unlinkStep_isSome eid) removeFrom d c
            rw [hdA1] at hiso
            rw [hiso]
            exact hsD
          · rcases horD with h1 | h1
            · left
              have hent := stFold_entries_all (unlinkStep eid)
                (unlinkStep_entries eid) removeFrom d
              rw [hdA1] at hent
              rw [hasEntry_eq_of_entries d dA eid hent]
              exact h1
            · right
              rw [hdA1] at h1
              exact h1
  · intro ts d1 err h
    unfold reconcile at h
    exact stFold_error_localize (reconcileEntry ts) ts.entries d d1 err h

/-- Witness for C7 at concrete inputs over `exDoc`: link on an unknown
entry id reports UnknownEntry, link into an unknown container reports
UnknownContainer, link of an already-referenced entry reports
DuplicateMembership, unlink and Deduplicate on an unknown container report
UnknownContainer, strict insert of an existing name reports
DuplicateEntry, lookup of an unknown id reports UnknownEntry, a valid
composed Reassign reports no error, and a Reconciler run over an unknown
removal container hands back exactly that failing entry's UnknownContainer
error with the untouched starting Document. -/
theorem errors_returned_to_caller_witness :
    (applyOp exDoc (.link 10 99 "x")).2 = some .unknownEntry ∧
    (applyOp exDoc (.link 99 1 "x")).2 = some .unknownContainer ∧
    (applyOp exDoc (.link 10 1 "x")).2 = some .duplicateMembership ∧
    (applyOp exDoc (.unlink 99 1)).2 = some .unknownContainer ∧
    (applyOp exDoc (.dedup 99)).2 = some .unknownContainer ∧
    (applyOp exDoc (.insert ⟨7, "src", "a.swift", []⟩ true)).2 =
      some .duplicateEntry ∧
    get_entry exDoc 99 = .error .unknownEntry ∧
    (applyOp exDoc (.reassign 3 [10] [12])).2 = none ∧
    (∃ l1 e l2, ([3] : List Nat) = l1 ++ e :: l2 ∧
      (stFold (reconcileEntry ⟨[3], [], [99]⟩) exDoc l1).2 = none ∧
      reconcileEntry ⟨[3], [], [99]⟩
        (stFold (reconcileEntry ⟨[3], [], [99]⟩) exDoc l1).1 e =
        (exDoc, some .unknownContainer)) := by
  obtain ⟨hg, hi, hl, hu, hd, hr, hrc⟩ := errors_returned_to_caller exDoc
  refine ⟨?_, ?_, ?_, ?_, ?_, ?_, ?_, ?_, ?_⟩
  · rw [hl 10 99 "x"]
    rfl
  · rw [hl 99 1 "x"]
    rfl
  · rw [hl 10 1 "x"]
    rfl
  · rw [hu 99 1]
    rfl
  · rw [hd 99]
    rfl
  · rw [hi ⟨7, "src", "a.swift", []⟩ true]
    rfl
  · exact (hg 99).1 (by rfl)
  · exact (hr 3 [10] [12]).mpr ⟨by decide, by decide⟩
  · exact hrc ⟨[3], [], [99]⟩ exDoc .unknownContainer (by rfl)

end Voisapp
